import Mathlib

/-
Verification development for the synthetic-CRM dataset generator
(`generator/generate.py` and its helpers).

Modelling conventions:
* Python `float` values are modelled as exact fractions: the structure `Q`
  below is an unnormalised pair `num/den` of integers.  All operations on
  `Q` are plain integer arithmetic, so every definition in this file is
  executable and kernel-reducible.  `Q.toRat` maps a fraction to `ℚ` and is
  used only inside proofs.
* The Mersenne-Twister pseudorandom source wrapped by `generator/rng.py` is
  abstracted as two fixed streams (one of naturals backing the integer
  draws, one of fractions backing the real draws) together with a position
  counter.  Every sampling primitive consumes one position, exactly like
  each call into `random.Random` consumes the underlying generator.
* Python exceptions are modelled with `Except String`; the stateful
  generator body runs in `GenM`, a state-plus-exceptions monad over the
  RNG state.
* The module-level constants of `generator/settings.py` are gathered in a
  `Settings` record (the spec's "configuration surface"); `defaultSettings`
  holds the literal values of `settings.py`.
* Dates (ISO `YYYY-MM-DD` strings in the source) are represented by their
  proleptic-Gregorian ordinal (a `ℤ`), exactly the representation CPython's
  `datetime.date.toordinal` uses; the ISO string and the ordinal determine
  each other, and every comparison the code performs on dates is mirrored
  by the same comparison on ordinals.
-/

/-! ### Exact fractions standing for Python floats -/

/-- An unnormalised fraction.  `⟨n, d⟩` stands for the real number `n / d`.
Well-formed values (the ones the generator actually builds from program
data) have a positive denominator. -/

structure Q where
  num : ℤ
  den : ℤ
deriving Repr

/-- Well-formedness: positive denominator. -/
def Q.WFQ (a : Q) : Prop := 0 < a.den

instance (a : Q) : Decidable a.WFQ := by unfold Q.WFQ; infer_instance

def Q.ofInt (n : ℤ) : Q := ⟨n, 1⟩

def Q.add (a b : Q) : Q := ⟨a.num * b.den + b.num * a.den, a.den * b.den⟩

def Q.sub (a b : Q) : Q := ⟨a.num * b.den - b.num * a.den, a.den * b.den⟩

def Q.mul (a b : Q) : Q := ⟨a.num * b.num, a.den * b.den⟩

/-- Reciprocal, with the sign moved into the numerator position so that a
well-formed nonzero input yields a well-formed output. -/
def Q.inv (b : Q) : Q := if 0 ≤ b.num then ⟨b.den, b.num⟩ else ⟨-b.den, -b.num⟩

def Q.div (a b : Q) : Q := a.mul b.inv

/-- Strict comparison by cross-multiplication (sound for well-formed
operands). -/
def Q.ltQ (a b : Q) : Prop := a.num * b.den < b.num * a.den

def Q.leQ (a b : Q) : Prop := a.num * b.den ≤ b.num * a.den

instance (a b : Q) : Decidable (a.ltQ b) := by unfold Q.ltQ; infer_instance

instance (a b : Q) : Decidable (a.leQ b) := by unfold Q.leQ; infer_instance

/-- `min` of two fractions, as Python's `min` on floats. -/
def Q.minQ (a b : Q) : Q := if a.leQ b then a else b

/-- Absolute value. -/
def Q.absQ (a : Q) : Q := ⟨|a.num|, a.den⟩

/-- Floor of a well-formed fraction (`Int.fdiv` is floor division). -/
def Q.floorQ (a : Q) : ℤ := Int.fdiv a.num a.den

/-- Ceiling of a well-formed fraction. -/
def Q.ceilQ (a : Q) : ℤ := -(Int.fdiv (-a.num) a.den)

/-- The value of a fraction as a rational number.  Proof-side only. -/
def Q.toRat (a : Q) : ℚ := (a.num : ℚ) / (a.den : ℚ)

/-! ### Python's numeric conversions

`int(x)` on a float truncates toward zero; `round(x)` rounds to the nearest
integer with ties going to the even neighbour (banker's rounding). -/

/-- Python `int(x)` for a float `x`: truncation toward zero (`Int.tdiv`
truncates toward zero, and well-formed fractions have a positive
denominator). -/
def pyTrunc (a : Q) : ℤ := a.num.tdiv a.den

/-- Python `round(x)` for a float `x`: nearest integer, ties to even. -/
def pyRound (a : Q) : ℤ :=
  let f := a.floorQ
  let frac := a.sub (Q.ofInt f)
  if frac.ltQ ⟨1, 2⟩ then f
  else if Q.ltQ ⟨1, 2⟩ frac then f + 1
  else if f % 2 = 0 then f else f + 1

/-- Proof-side rounding on `ℚ` (same tie-to-even rule). -/
def ratRound (q : ℚ) : ℤ :=
  if q - (⌊q⌋ : ℚ) < 1/2 then ⌊q⌋
  else if (1:ℚ)/2 < q - (⌊q⌋ : ℚ) then ⌊q⌋ + 1
  else if ⌊q⌋ % 2 = 0 then ⌊q⌋ else ⌊q⌋ + 1

/-! ### Calendar ordinals

CPython's `datetime.date` is compared and shifted through its proleptic
Gregorian ordinal; `dateOrdinal y m d` is `date(y, m, d).toordinal()`. -/

def isLeapYear (y : ℕ) : Bool := y % 4 = 0 && (y % 100 != 0 || y % 400 = 0)

def daysBeforeMonth (y m : ℕ) : ℕ :=
  (([31, 28, 31, 30, 31, 30, 31, 31, 30, 31, 30] : List ℕ).take (m - 1)).sum +
    (if 2 < m ∧ isLeapYear y then 1 else 0)

def dateOrdinal (y m d : ℕ) : ℤ :=
  (((y - 1) * 365 + (y - 1) / 4 - (y - 1) / 100 + (y - 1) / 400 + daysBeforeMonth y m + d : ℕ) : ℤ)

/-- An inclusive date window (`DateWindow` in `generator/settings.py`).
The Python field `end` is a Lean keyword and is called `stop` here. -/
structure DateWindow where
  start : ℤ
  stop : ℤ
deriving Repr, DecidableEq

/-! ### The configuration surface of `generator/settings.py`

The source reads these as module-level constants; the spec describes them
as a configuration object handed to the generator, which is how they are
modelled here.  `defaultSettings` carries the literal values of
`settings.py`.  Percentages and multipliers are exact fractions. -/

structure Settings where
  DEFAULT_SEED : ℤ
  NUM_REPS : ℕ
  NUM_ACCOUNTS : ℕ
  NUM_OPPORTUNITIES : ℕ
  PARETO_ALPHA : Q
  REVENUE_SCALE_DOLLARS : ℤ
  REVENUE_CAP_DOLLARS : ℤ
  REVENUE_PER_EMPLOYEE_MIN : Q
  REVENUE_PER_EMPLOYEE_MAX : Q
  DEVELOPER_PCT_MIN : Q
  DEVELOPER_PCT_MAX : Q
  IS_CUSTOMER_RATE : Q
  PRODUCTS : List String
  OPPS_PER_ACCOUNT_MIN : ℤ
  OPPS_PER_ACCOUNT_MAX : ℤ
  TAM_PER_DEVELOPER : ℤ
  COVERAGE_PCT_MIN : Q
  COVERAGE_PCT_MAX : Q
  AMOUNT_MULTIPLIER_MIN : Q
  AMOUNT_MULTIPLIER_MAX : Q
  RECENT_CLOSE_WINDOW : DateWindow
  FUTURE_CLOSE_WINDOW : DateWindow
  RECENT_CLOSE_PCT : Q
  MISSING_CLOSE_PCT : Q
  TOTAL_PIPELINE_TARGET : ℤ
  TOTAL_PIPELINE_MIN : ℤ
  TOTAL_PIPELINE_MAX : ℤ
  AMOUNT_RETRY_LIMIT : ℕ
  QUOTA_MULTIPLIER_ON_TERRITORY_PIPELINE : Q
  QUOTA_MIN : ℤ
  QUOTA_MAX : ℤ

def defaultSettings : Settings where
  DEFAULT_SEED := 123
  NUM_REPS := 30
  NUM_ACCOUNTS := 70
  NUM_OPPORTUNITIES := 100
  PARETO_ALPHA := Q.ofInt 1
  REVENUE_SCALE_DOLLARS := 75000000
  REVENUE_CAP_DOLLARS := 700000000000
  REVENUE_PER_EMPLOYEE_MIN := Q.ofInt 20000
  REVENUE_PER_EMPLOYEE_MAX := Q.ofInt 1000000
  DEVELOPER_PCT_MIN := ⟨5, 100⟩
  DEVELOPER_PCT_MAX := ⟨50, 100⟩
  IS_CUSTOMER_RATE := ⟨30, 100⟩
  PRODUCTS := ["Devin", "Windsurf"]
  OPPS_PER_ACCOUNT_MIN := 0
  OPPS_PER_ACCOUNT_MAX := 2
  TAM_PER_DEVELOPER := 1000
  COVERAGE_PCT_MIN := ⟨50, 100⟩
  COVERAGE_PCT_MAX := Q.ofInt 1
  AMOUNT_MULTIPLIER_MIN := ⟨50, 100⟩
  AMOUNT_MULTIPLIER_MAX := Q.ofInt 2
  RECENT_CLOSE_WINDOW := ⟨dateOrdinal 2025 10 1, dateOrdinal 2026 2 18⟩
  FUTURE_CLOSE_WINDOW := ⟨dateOrdinal 2026 2 19, dateOrdinal 2026 9 30⟩
  RECENT_CLOSE_PCT := ⟨10, 100⟩
  MISSING_CLOSE_PCT := ⟨5, 100⟩
  TOTAL_PIPELINE_TARGET := 10000000
  TOTAL_PIPELINE_MIN := 9000000
  TOTAL_PIPELINE_MAX := 13000000
  AMOUNT_RETRY_LIMIT := 20
  QUOTA_MULTIPLIER_ON_TERRITORY_PIPELINE := ⟨90, 100⟩
  QUOTA_MIN := 200000
  QUOTA_MAX := 1500000

namespace Gen

structure Rep where
  id : ℤ
  name : String
  homeState : String
  region : String
  quota : ℤ
  territoryId : ℤ
deriving Repr, DecidableEq

structure Account where
  id : ℤ
  name : String
  annualRevenue : ℤ
  numDevelopers : ℤ
  state : String
  industry : String
  isCustomer : Bool
  inPipeline : Bool
  repId : ℤ
  territoryId : ℤ
deriving Repr, DecidableEq

structure Opportunity where
  id : ℤ
  name : String
  amount : ℤ
  stage : String
  closeDate : Option ℤ
  repId : ℤ
  accountId : ℤ
deriving Repr, DecidableEq

structure Territory where
  id : ℤ
  name : String
deriving Repr, DecidableEq

/-- The tuple returned by `generate` (source line
`return reps, accounts, opportunities, territories`). -/
structure GenOut where
  reps : List Rep
  accounts : List Account
  opportunities : List Opportunity
  territories : List Territory
deriving Repr, DecidableEq

/-! ### The RNG wrapper (`generator/rng.py`)

`random.Random(seed)` is a deterministic pseudorandom stream; the model
abstracts it as two fixed streams indexed by a position counter.  Each
primitive of the `Rng` wrapper consumes one position. -/

structure Rng where
  ints : ℕ → ℕ
  reals : ℕ → Q
  pos : ℕ

def Rng.next (r : Rng) : Rng := { r with pos := r.pos + 1 }

/-- The generator monad: RNG state threading plus Python exceptions. -/
def GenM (α : Type) : Type := Rng → Except String (α × Rng)

def gPure {α : Type} (a : α) : GenM α := fun r => .ok (a, r)

def gBind {α β : Type} (x : GenM α) (f : α → GenM β) : GenM β := fun r =>
  match x r with
  | .error e => .error e
  | .ok (a, r1) => f a r1

instance : Monad GenM where
  pure := gPure
  bind := gBind

/-- Raising an exception. -/
def gThrow {α : Type} (e : String) : GenM α := fun _ => .error e

/-- `random.Random.random()`: one abstract real draw. -/
def randomM : GenM Q := fun r => .ok (r.reals r.pos, r.next)

/-- `Rng.uniform(a, b)`, i.e. CPython's `a + (b - a) * random()`. -/
def uniformM (a b : Q) : GenM Q := do
  let u ← randomM
  pure (a.add ((b.sub a).mul u))

/-- `Rng.paretovariate(alpha)`.  The Pareto transform of the underlying
uniform draw is abstracted as one opaque real draw; none of the verified
properties depend on the distribution's shape. -/
def paretovariateM (alpha : Q) : GenM Q := fun r => .ok (r.reals r.pos, r.next)

/-- `random.Random._randbelow(n)`: an integer draw in `[0, n)` (for
`n = 0` CPython returns `0`). -/
def randbelowM (n : ℕ) : GenM ℕ := fun r => .ok (r.ints r.pos % n, r.next)

/-- `Rng.randint(a, b)`: uniform integer in `[a, b]`; raises on an empty
range like `random.randrange`. -/
def randintM (a b : ℤ) : GenM ℤ := fun r =>
  if b < a then .error "empty range for randrange()"
  else .ok (a + ((r.ints r.pos % (b - a + 1).toNat : ℕ) : ℤ), r.next)

/-- `Rng.choice(seq)`: `seq[randbelow(len(seq))]`; raises on an empty
sequence. -/
def choiceM {α : Type} (l : List α) : GenM α := fun r =>
  if h : 0 < l.length then
    .ok (l.get ⟨r.ints r.pos % l.length, Nat.mod_lt _ h⟩, r.next)
  else .error "Cannot choose from an empty sequence"

/-- Exchange the elements at positions `i` and `j`. -/
def listSwap {α : Type} (l : List α) (i j : ℕ) : List α :=
  match l.get? i, l.get? j with
  | some x, some y => (l.set i y).set j x
  | _, _ => l

/-- The Fisher-Yates passes of `random.Random.shuffle`: for
`i = n-1, …, 1` draw `j` below `i+1` and swap slots `i` and `j`. -/
def shuffleAux {α : Type} : List α → ℕ → GenM (List α)
  | l, 0 => pure l
  | l, i + 1 => do
      let j ← randbelowM (i + 2)
      shuffleAux (listSwap l (i + 1) j) i

/-- `Rng.shuffle(seq)` (in-place in Python; returns the permuted list). -/
def shuffleM {α : Type} (l : List α) : GenM (List α) := shuffleAux l (l.length - 1)

/-- One selection step of `random.Random.sample`: draw a position in the
remaining pool, remove the element, keep sampling. -/
def sampleAux {α : Type} : ℕ → List α → GenM (List α)
  | 0, _ => pure []
  | k + 1, pool => fun r =>
      if h : 0 < pool.length then
        let idx := r.ints r.pos % pool.length
        match sampleAux k (pool.eraseIdx idx) r.next with
        | .error e => .error e
        | .ok (rest, r2) => .ok (pool.get ⟨idx, Nat.mod_lt _ h⟩ :: rest, r2)
      else .error "Sample larger than population or is negative"

/-- `Rng.sample(population, k)`: `k` distinct elements drawn without
replacement (the draw order is abstracted through the integer stream). -/
def sampleM {α : Type} (pop : List α) (k : ℕ) : GenM (List α) :=
  if k ≤ pop.length then sampleAux k pop
  else gThrow "Sample larger than population or is negative"

/-- `Rng.date_between(start, end)` on ordinals: validates the window, then
`start + randint(0, days)`. -/
def dateBetweenM (startO stopO : ℤ) : GenM ℤ :=
  if stopO < startO then gThrow "Invalid date window"
  else do
    let offset ← randintM 0 (stopO - startO)
    pure (startO + offset)

/-! ### Sorting

Python's `sorted` on strings.  (A structural insertion sort; only
determinism matters to the verified properties, not the ordering
itself.) -/

def insertSorted (s : String) : List String → List String
  | [] => [s]
  | x :: xs => if s ≤ x then s :: x :: xs else x :: insertSorted s xs

def pySorted (l : List String) : List String := l.foldr insertSorted []

/-! ### Pure helpers of `generator/generate.py` -/

/-- `_clamp_int(x, lo, hi)`.  In the source it is applied to the integer
`round(quota)`, on which `int(x)` is the identity. -/
def _clamp_int (x lo hi : ℤ) : ℤ :=
  if x < lo then lo
  else if hi < x then hi
  else x

/-- `_build_account_name`: `"{noun} {suffix}"`. -/
def _build_account_name (nouns suffixes : List String) : GenM String := do
  let n ← choiceM nouns
  let s ← choiceM suffixes
  pure (n ++ " " ++ s)

/-- `_build_rep_name`: `"{first} {last}"`. -/
def _build_rep_name (first last : List String) : GenM String := do
  let f ← choiceM first
  let l ← choiceM last
  pure (f ++ " " ++ l)

/-- `_pareto_revenue`: heavy-tailed draw scaled into dollars and capped. -/
def _pareto_revenue (cfg : Settings) : GenM ℤ := do
  let r ← paretovariateM cfg.PARETO_ALPHA
  let dollars := pyTrunc ((Q.ofInt cfg.REVENUE_SCALE_DOLLARS).mul r)
  if cfg.REVENUE_CAP_DOLLARS < dollars then pure cfg.REVENUE_CAP_DOLLARS
  else pure dollars

/-- `_num_developers`: headcount from revenue / revenue-per-employee times
a developer fraction, at least 1. -/
def _num_developers (cfg : Settings) (annual_revenue : ℤ) : GenM ℤ := do
  let rpe ← uniformM cfg.REVENUE_PER_EMPLOYEE_MIN cfg.REVENUE_PER_EMPLOYEE_MAX
  if rpe.num = 0 then gThrow "ZeroDivisionError: float division by zero"
  else do
    let totalEmployees := (Q.ofInt annual_revenue).div rpe
    let developerPct ← uniformM cfg.DEVELOPER_PCT_MIN cfg.DEVELOPER_PCT_MAX
    let devs := pyRound (totalEmployees.mul developerPct)
    pure (max 1 devs)

/-! ### `_reconcile_opp_counts`

The source's two `while` loops move the running total by exactly one per
iteration toward `target`, so `(target − sum)⁺` (resp. `(sum − target)⁺`)
iterations are always exactly enough; that bound is supplied as structural
fuel, which keeps the definition kernel-executable. -/

def reconcileUp (hi target : ℤ) : ℕ → List ℤ → GenM (List ℤ)
  | 0, counts => pure counts
  | fuel + 1, counts =>
    if counts.sum < target then
      let eligible := (List.range counts.length).filter (fun i => counts.getD i 0 < hi)
      if eligible.isEmpty then gThrow "Cannot add opportunities: no eligible accounts < max"
      else do
        let idx ← choiceM eligible
        reconcileUp hi target fuel (counts.set idx (counts.getD idx 0 + 1))
    else pure counts

def reconcileDown (lo target : ℤ) : ℕ → List ℤ → GenM (List ℤ)
  | 0, counts => pure counts
  | fuel + 1, counts =>
    if target < counts.sum then
      let eligible := (List.range counts.length).filter (fun i => lo < counts.getD i 0)
      if eligible.isEmpty then gThrow "Cannot remove opportunities: no eligible accounts > min"
      else do
        let idx ← choiceM eligible
        reconcileDown lo target fuel (counts.set idx (counts.getD idx 0 - 1))
    else pure counts

def _reconcile_opp_counts (cfg : Settings) (counts : List ℤ) (target : ℤ) :
    GenM (List ℤ) := do
  let c1 ← reconcileUp cfg.OPPS_PER_ACCOUNT_MAX target (target - counts.sum).toNat counts
  reconcileDown cfg.OPPS_PER_ACCOUNT_MIN target (c1.sum - target).toNat c1

/-! ### `_enforce_tam_int` -/

/-- `max(range(len(l)), key=lambda j: l[j])`: the first index holding the
maximal value. -/
def argmaxIdx (l : List ℤ) : ℕ :=
  (List.range l.length).foldl (fun best j => if l.getD best 0 < l.getD j 0 then j else best) 0

/-- The rounding-overflow fix-up `while` loop of `_enforce_tam_int`: while
the sum still exceeds `tam` and some amount is positive, decrement the
largest amount.  Each pass lowers the sum of positive parts by one, so that
sum is enough fuel. -/
def tamFixupLoop (tam : ℤ) : ℕ → List ℤ → List ℤ
  | 0, scaled => scaled
  | fuel + 1, scaled =>
    if tam < scaled.sum ∧ ∃ x ∈ scaled, 0 < x then
      let i := argmaxIdx scaled
      if scaled.getD i 0 ≤ 0 then scaled
      else tamFixupLoop tam fuel (scaled.set i (scaled.getD i 0 - 1))
    else scaled

/-- `_enforce_tam_int(amounts, tam)`: deterministic TAM enforcement with
rounding-safe overflow adjustment. -/
def _enforce_tam_int (amounts : List ℤ) (tam : ℤ) : List ℤ :=
  let total := amounts.sum
  if total ≤ tam then amounts
  else if total ≤ 0 then amounts
  else
    let factor := (Q.ofInt tam).div (Q.ofInt total)
    let scaled := amounts.map (fun a => pyRound ((Q.ofInt a).mul factor))
    tamFixupLoop tam ((scaled.map Int.toNat).sum) scaled

/-! ### `_generate_amounts_for_accounts`

The Python dict `by_account` (insertion-ordered, keyed by account id) is
modelled as an association list in account order; `generate` only ever
builds it with distinct account ids. -/

/-- `m.get(k, [])` on the association list. -/
def dictGet (m : List (ℤ × List ℤ)) (k : ℤ) : List ℤ :=
  match m.find? (fun p => p.1 = k) with
  | some p => p.2
  | none => []

/-- The `for _ in range(n)` loop drawing raw amounts `round(x * u)`. -/
def rawAmounts (cfg : Settings) (x : Q) : ℕ → GenM (List ℤ)
  | 0 => pure []
  | n + 1 => do
      let u ← uniformM cfg.AMOUNT_MULTIPLIER_MIN cfg.AMOUNT_MULTIPLIER_MAX
      let a := pyRound (x.mul u)
      let rest ← rawAmounts cfg x n
      pure (a :: rest)

/-- The body of the per-account loop of `_generate_amounts_for_accounts`. -/
def amountsForOneAccount (cfg : Settings) (acct : Account) (n : ℤ) :
    GenM (ℤ × List ℤ) :=
  if n ≤ 0 then pure (acct.id, [])
  else do
    let tam := cfg.TAM_PER_DEVELOPER * acct.numDevelopers
    let coverage ← uniformM cfg.COVERAGE_PCT_MIN cfg.COVERAGE_PCT_MAX
    let x := (Q.ofInt tam).mul coverage
    let raw ← rawAmounts cfg x n.toNat
    pure (acct.id, _enforce_tam_int raw tam)

def genAmountsLoop (cfg : Settings) : List (Account × ℤ) → GenM (List (ℤ × List ℤ))
  | [] => pure []
  | (acct, n) :: rest => do
      let entry ← amountsForOneAccount cfg acct n
      let tail ← genAmountsLoop cfg rest
      pure (entry :: tail)

/-- `_generate_amounts_for_accounts(rng, accounts, opp_counts)`; the
`strict=True` zip raises on a length mismatch. -/
def _generate_amounts_for_accounts (cfg : Settings) (accounts : List Account)
    (opp_counts : List ℤ) : GenM (List (ℤ × List ℤ)) :=
  if accounts.length = opp_counts.length then genAmountsLoop cfg (accounts.zip opp_counts)
  else gThrow "zip() argument lengths differ"

/-! ### `_try_global_scale` -/

/-- The per-account total `per_acct_total[acct_id]`. -/
def acctTotalIn (m : List (ℤ × List ℤ)) (aid : ℤ) : ℤ := (dictGet m aid).sum

/-- The dataset total computed by `_try_global_scale` (the sum of the
per-account totals taken over `accounts`). -/
def scaleTotal (m : List (ℤ × List ℤ)) (accounts : List Account) : ℤ :=
  (accounts.map (fun a => acctTotalIn m a.id)).sum

/-- The `k_max` fold of `_try_global_scale`: the running minimum of
`tam / acct_total` over accounts with a positive total, starting from
`float("inf")` (modelled by `none`). -/
def kMaxFold (cfg : Settings) (accounts : List Account) (m : List (ℤ × List ℤ)) :
    Option Q :=
  accounts.foldl
    (fun acc acct =>
      let acctTotal := acctTotalIn m acct.id
      if acctTotal ≤ 0 then acc
      else
        let tam := cfg.TAM_PER_DEVELOPER * acct.numDevelopers
        let ratio := (Q.ofInt tam).div (Q.ofInt acctTotal)
        match acc with
        | none => some ratio
        | some km => some (km.minQ ratio))
    none

/-- The factor-selection logic of `_try_global_scale` (the lines computing
`k_ideal`, `k_max` and `k_applied`), extracted so that the factor the
pass applies can be named in theorems about it. -/
def globalScaleK (cfg : Settings) (accounts : List Account)
    (m : List (ℤ × List ℤ)) : Q :=
  let kIdeal := (Q.ofInt cfg.TOTAL_PIPELINE_TARGET).div (Q.ofInt (scaleTotal m accounts))
  if kIdeal.ltQ (Q.ofInt 1) then kIdeal
  else
    match kMaxFold cfg accounts m with
    | none => kIdeal
    | some km => kIdeal.minQ km

/-- The body of the rescaling loop of `_try_global_scale` (the `for acct in
accounts` loop that fills `scaled_by_account`). -/
def scaleOneAccount (cfg : Settings) (m : List (ℤ × List ℤ)) (k : Q)
    (acct : Account) : ℤ × List ℤ :=
  let amounts := dictGet m acct.id
  if amounts.isEmpty then (acct.id, [])
  else
    let tam := cfg.TAM_PER_DEVELOPER * acct.numDevelopers
    let scaled := amounts.map (fun a => pyRound ((Q.ofInt a).mul k))
    (acct.id, _enforce_tam_int scaled tam)

/-- `_try_global_scale(accounts, opp_amounts_by_account)`. -/
def _try_global_scale (cfg : Settings) (accounts : List Account)
    (m : List (ℤ × List ℤ)) : List (ℤ × List ℤ) :=
  let total := scaleTotal m accounts
  if total ≤ 0 then m
  else
    let kApplied := globalScaleK cfg accounts m
    if ((kApplied.sub (Q.ofInt 1)).absQ.ltQ ⟨1, 1000000000000⟩) then m
    else accounts.map (scaleOneAccount cfg m kApplied)

/-! ### The amount retry loop of `generate` -/

/-- One attempt: fresh per-account amounts, then the global scaling pass. -/
def amountAttempt (cfg : Settings) (accounts : List Account) (counts : List ℤ) :
    GenM (List (ℤ × List ℤ)) := do
  let m ← _generate_amounts_for_accounts cfg accounts counts
  pure (_try_global_scale cfg accounts m)

/-- `sum(sum(v) for v in best.values())`. -/
def mTotal (m : List (ℤ × List ℤ)) : ℤ := (m.map (fun p => p.2.sum)).sum

/-- `dist < best_dist`, with `best_dist` starting at `float("inf")`. -/
def betterDist (dist : ℤ) : Option ℤ → Bool
  | none => true
  | some d => decide (dist < d)

/-- The `for _attempt in range(settings.AMOUNT_RETRY_LIMIT)` loop, keeping
the attempt whose total is closest to the target and breaking as soon as an
attempt lands inside the configured range. -/
def amountRetryLoop (cfg : Settings) (accounts : List Account) (counts : List ℤ) :
    ℕ → Option (List (ℤ × List ℤ)) → Option ℤ → GenM (Option (List (ℤ × List ℤ)))
  | 0, best, _ => pure best
  | fuel + 1, best, bestDist => do
      let m ← amountAttempt cfg accounts counts
      let total := mTotal m
      let dist := |total - cfg.TOTAL_PIPELINE_TARGET|
      let best2 := if betterDist dist bestDist then some m else best
      let bestDist2 := if betterDist dist bestDist then some dist else bestDist
      if cfg.TOTAL_PIPELINE_MIN ≤ total ∧ total ≤ cfg.TOTAL_PIPELINE_MAX then pure (some m)
      else amountRetryLoop cfg accounts counts fuel best2 bestDist2

/-- The message of the final `RuntimeError` of the amount section. -/
def pipelineFailMsg (cfg : Settings) (total : ℤ) : String :=
  let lim := cfg.AMOUNT_RETRY_LIMIT
  s!"Failed to reach total pipeline target range after {lim} retries; total={total}"

/-- The amount-generation section of `generate` (retry loop, `best is None`
check, and the final range check). -/
def amountsStage (cfg : Settings) (accounts : List Account) (counts : List ℤ) :
    GenM (List (ℤ × List ℤ)) := do
  let best ← amountRetryLoop cfg accounts counts cfg.AMOUNT_RETRY_LIMIT none none
  match best with
  | none => gThrow "Failed to generate opportunity amounts"
  | some m =>
      let total := mTotal m
      if cfg.TOTAL_PIPELINE_MIN ≤ total ∧ total ≤ cfg.TOTAL_PIPELINE_MAX then pure m
      else gThrow (pipelineFailMsg cfg total)

/-! ### The `generate` entry point

The vocabulary files and the state→region JSON are read by the io
collaborators (`read_text_list`, `read_json`, `parse_state_region_mapping`);
their parsed results are the inputs of the model. -/

structure GenInputs where
  first_names : List String
  last_names : List String
  nouns : List String
  suffixes : List String
  industries_vocab : List String
  stages : List String
  state_to_region : List (String × String)

/-- `sorted(region_to_states.keys())`: the distinct regions, sorted. -/
def regionsOf (v : GenInputs) : List String :=
  pySorted (v.state_to_region.map (fun p => p.2)).dedup

/-- `region_to_states[rg]`: the states mapped to `rg`, in input order. -/
def statesInRegion (v : GenInputs) (rg : String) : List String :=
  (v.state_to_region.filter (fun p => p.2 = rg)).map (fun p => p.1)

/-- A monadic `map` (the source's sequential `for` loops building lists). -/
def gMapM {α β : Type} (f : α → GenM β) : List α → GenM (List β)
  | [] => pure []
  | x :: xs => do
      let y ← f x
      let ys ← gMapM f xs
      pure (y :: ys)

/-- The body of the account-construction loop of `generate`. -/
def mkAccount (cfg : Settings) (v : GenInputs) (acct_id : ℤ) : GenM Account := do
  let industry ← choiceM v.industries_vocab
  let annualRevenue ← _pareto_revenue cfg
  let numDevs ← _num_developers cfg annualRevenue
  let u ← randomM
  let isCustomer := decide (u.ltQ cfg.IS_CUSTOMER_RATE)
  let name ← _build_account_name v.nouns v.suffixes
  pure { id := acct_id, name := name, annualRevenue := annualRevenue,
         numDevelopers := numDevs, state := "", industry := industry,
         isCustomer := isCustomer, inPipeline := false, repId := 0,
         territoryId := 0 }

/-- `for acct_id in range(1, settings.NUM_ACCOUNTS + 1)`. -/
def accountsStage (cfg : Settings) (v : GenInputs) : GenM (List Account) :=
  gMapM (fun i : ℕ => mkAccount cfg v ((i : ℤ) + 1)) (List.range cfg.NUM_ACCOUNTS)

/-- `sorted({a["industry"] for a in accounts})`. -/
def usedIndustries (accounts : List Account) : List String :=
  pySorted (accounts.map (fun a => a.industry)).dedup

/-- Territories, one per used industry, ids `1, 2, …` in sorted order. -/
def territoriesOf (accounts : List Account) : List Territory :=
  let used := usedIndustries accounts
  (List.range used.length).map
    (fun i => { id := ((i + 1 : ℕ) : ℤ), name := used.getD i "" ++ " Territory" })

/-- `industry_to_territory_id[ind]`. -/
def industryTerritoryId (accounts : List Account) (ind : String) : ℤ :=
  ((usedIndustries accounts).indexOf ind : ℕ) + 1

/-- The rep-construction loop; `territory_ids[(rep_id - 1) % len]` raises
`ZeroDivisionError` when there are no territories. -/
def repsStage (cfg : Settings) (v : GenInputs) (territory_ids : List ℤ) :
    GenM (List Rep) :=
  if territory_ids.isEmpty then gThrow "ZeroDivisionError: integer modulo by zero"
  else
    gMapM
      (fun i => do
        let terr := territory_ids.getD (i % territory_ids.length) 0
        let name ← _build_rep_name v.first_names v.last_names
        pure { id := (i : ℤ) + 1, name := name, homeState := "", region := "",
               quota := 0, territoryId := terr })
      (List.range cfg.NUM_REPS)

/-- The account-ownership loop: choose a rep from
`reps_by_territory[terr_id]`, failing when the territory has none. -/
def assignOwners (reps : List Rep) : List Account → GenM (List Account)
  | [] => pure []
  | a :: rest => do
      let choices := reps.filter (fun r => r.territoryId = a.territoryId)
      if choices.isEmpty then
        gThrow ("No reps available for territoryId=" ++ toString a.territoryId)
      else do
        let chosen ← choiceM choices
        let rest2 ← assignOwners reps rest
        pure ({ a with repId := chosen.id } :: rest2)

/-- The inner `for i in range(n)` loop building one account's
opportunities (product choice, name, stage choice, empty close date). -/
def mkOppsForAccount (cfg : Settings) (v : GenInputs) (acct : Account) :
    List ℤ → ℤ → GenM (List Opportunity)
  | [], _ => pure []
  | amt :: rest, oppId => do
      let product ← choiceM cfg.PRODUCTS
      let stage ← choiceM v.stages
      let opp : Opportunity :=
        { id := oppId, name := acct.name ++ " " ++ product, amount := amt,
          stage := stage, closeDate := none, repId := acct.repId,
          accountId := acct.id }
      let tail ← mkOppsForAccount cfg v acct rest (oppId + 1)
      pure (opp :: tail)

/-- The outer opportunity-construction loop over `zip(accounts, opp_counts,
strict=True)`, with the internal amount-count consistency check. -/
def buildOppsLoop (cfg : Settings) (v : GenInputs) (best : List (ℤ × List ℤ)) :
    List (Account × ℤ) → ℤ → GenM (List Opportunity)
  | [], _ => pure []
  | (acct, n) :: rest, nextId => do
      let amounts := dictGet best acct.id
      if (amounts.length : ℤ) ≠ n then
        gThrow ("Internal error: amount count mismatch for account " ++ toString acct.id)
      else do
        let opps ← mkOppsForAccount cfg v acct amounts nextId
        let tail ← buildOppsLoop cfg v best rest (nextId + (amounts.length : ℤ))
        pure (opps ++ tail)

def buildOpportunities (cfg : Settings) (v : GenInputs) (best : List (ℤ × List ℤ))
    (accounts : List Account) (counts : List ℤ) : GenM (List Opportunity) :=
  if accounts.length = counts.length then buildOppsLoop cfg v best (accounts.zip counts) 1
  else gThrow "zip() argument lengths differ"

/-- `opps_by_account_id[aid]` (the dict groups opportunities by account in
construction order, which equals filtering the full list). -/
def oppsOf (opportunities : List Opportunity) (aid : ℤ) : List Opportunity :=
  opportunities.filter (fun o => o.accountId = aid)

/-- `a["inPipeline"] = bool(opps_by_account_id.get(a["id"]))`. -/
def setInPipeline (opportunities : List Opportunity) (accounts : List Account) :
    List Account :=
  accounts.map (fun a => { a with inPipeline := !(oppsOf opportunities a.id).isEmpty })

/-- The conditional draw of the close-date loop: a recent-window date for
sampled positions, a future-window date for all others. -/
def dateForIdx (cfg : Settings) (recentIdx : List ℕ) (idx : ℕ) : GenM ℤ :=
  if idx ∈ recentIdx then
    dateBetweenM cfg.RECENT_CLOSE_WINDOW.start cfg.RECENT_CLOSE_WINDOW.stop
  else
    dateBetweenM cfg.FUTURE_CLOSE_WINDOW.start cfg.FUTURE_CLOSE_WINDOW.stop

/-- The close-date assignment loop: positions drawn into `recent_indices`
get a date in the recent window, all others a date in the future window. -/
def assignDatesLoop (cfg : Settings) (recentIdx : List ℕ) :
    List Opportunity → ℕ → GenM (List Opportunity)
  | [], _ => pure []
  | o :: rest, idx => do
      let d ← dateForIdx cfg recentIdx idx
      let tail ← assignDatesLoop cfg recentIdx rest (idx + 1)
      pure ({ o with closeDate := some d } :: tail)

/-- The close-date section: `recent_n = int(round(NUM_OPPORTUNITIES *
RECENT_CLOSE_PCT))`, a sample of that many indices, then the assignment
loop.  (The source's `if recent_n != int(...)` check is a no-op `pass`.) -/
def assignCloseDates (cfg : Settings) (opportunities : List Opportunity) :
    GenM (List Opportunity) := do
  let recentZ := pyRound ((Q.ofInt (cfg.NUM_OPPORTUNITIES : ℤ)).mul cfg.RECENT_CLOSE_PCT)
  if recentZ < 0 then gThrow "Sample larger than population or is negative"
  else do
    let recentIdx ← sampleM (List.range opportunities.length) recentZ.toNat
    assignDatesLoop cfg recentIdx opportunities 0

/-- `territory_id_to_region`: one region choice per territory. -/
def territoryRegions (regions : List String) : List Territory → GenM (List (ℤ × String))
  | [] => pure []
  | t :: rest => do
      let rg ← choiceM regions
      let tail ← territoryRegions regions rest
      pure ((t.id, rg) :: tail)

def lookupStr (m : List (ℤ × String)) (k : ℤ) : Option String :=
  (m.find? (fun p => p.1 = k)).map (fun p => p.2)

/-- The rep region/home-state loop. -/
def assignRepRegions (v : GenInputs) (tmap : List (ℤ × String)) :
    List Rep → GenM (List Rep)
  | [] => pure []
  | r :: rest =>
      match lookupStr tmap r.territoryId with
      | none => gThrow "KeyError"
      | some rg => do
          let sts := statesInRegion v rg
          if sts.isEmpty then gThrow ("No states available for region " ++ rg)
          else do
            let hs ← choiceM sts
            let tail ← assignRepRegions v tmap rest
            pure ({ r with region := rg, homeState := hs } :: tail)

/-- `a["state"] = rep_by_id[a["repId"]]["homeState"]`. -/
def setAccountStates (reps : List Rep) (accounts : List Account) :
    GenM (List Account) :=
  gMapM
    (fun a =>
      match reps.find? (fun r => r.id = a.repId) with
      | none => gThrow "KeyError"
      | some rep => pure { a with state := rep.homeState })
    accounts

/-- `territory_pipeline[terr_id]`: the summed opportunity amounts of the
accounts in the territory. -/
def territoryPipeline (opportunities : List Opportunity) (accounts : List Account)
    (tid : ℤ) : ℤ :=
  ((accounts.filter (fun a => a.territoryId = tid)).map
    (fun a => ((oppsOf opportunities a.id).map (fun o => o.amount)).sum)).sum

/-- The quota loop: territory pipeline divided over the territory's reps,
times the quota multiplier, rounded and clamped. -/
def quotaStage (cfg : Settings) (opportunities : List Opportunity)
    (accounts : List Account) (reps : List Rep) : List Rep :=
  reps.map (fun r =>
    let group := reps.filter (fun r2 => r2.territoryId = r.territoryId)
    let terrTotal := territoryPipeline opportunities accounts r.territoryId
    let perRepExpected := (Q.ofInt terrTotal).div (Q.ofInt (group.length : ℤ))
    let quota := perRepExpected.mul cfg.QUOTA_MULTIPLIER_ON_TERRITORY_PIPELINE
    { r with quota := _clamp_int (pyRound quota) cfg.QUOTA_MIN cfg.QUOTA_MAX })

/-- The body of `generate` (everything after the seed handling), staged in
source order. -/
def generateCore (cfg : Settings) (v : GenInputs) : GenM GenOut := do
  let regions := regionsOf v
  if regions.isEmpty then gThrow "No regions found in states/regions JSON"
  else do
    let accounts0 ← accountsStage cfg v
    let territories := territoriesOf accounts0
    let accounts1 := accounts0.map
      (fun a => { a with territoryId := industryTerritoryId accounts0 a.industry })
    let shuffled ← shuffleM (territories.map (fun t => t.id))
    let reps0 ← repsStage cfg v shuffled
    let accounts2 ← assignOwners reps0 accounts1
    let counts0 ← gMapM
      (fun _ => randintM cfg.OPPS_PER_ACCOUNT_MIN cfg.OPPS_PER_ACCOUNT_MAX) accounts2
    let counts ← _reconcile_opp_counts cfg counts0 (cfg.NUM_OPPORTUNITIES : ℤ)
    let best ← amountsStage cfg accounts2 counts
    let opps0 ← buildOpportunities cfg v best accounts2 counts
    let accounts3 := setInPipeline opps0 accounts2
    let opps ← assignCloseDates cfg opps0
    let tmap ← territoryRegions regions territories
    let reps1 ← assignRepRegions v tmap reps0
    let accounts4 ← setAccountStates reps1 accounts3
    let reps2 := quotaStage cfg opps accounts4 reps1
    pure { reps := reps2, accounts := accounts4, opportunities := opps,
           territories := territories }

/-- `generate(seed)`: seed defaulting, RNG construction (the seed-to-stream
map of `random.Random` is abstracted as the given `fromSeed`), then the
generator body.  Returns the tuple
`(reps, accounts, opportunities, territories)` or the raised error. -/
def generate (cfg : Settings) (fromSeed : ℤ → Rng) (seed : Option ℤ)
    (v : GenInputs) : Except String GenOut :=
  let seedUsed := match seed with
    | none => cfg.DEFAULT_SEED
    | some s => s
  match generateCore cfg v (fromSeed seedUsed) with
  | .error e => .error e
  | .ok (out, _) => .ok out

/-- The collections named in `generate`'s `return` statement
(`return reps, accounts, opportunities, territories`). -/
def generateReturnFields : List String :=
  ["reps", "accounts", "opportunities", "territories"]

/-! ### Date windows -/

/-- The date `d` lies in the inclusive window `w`. -/
def dateInWindow (w : DateWindow) (d : ℤ) : Prop := w.start ≤ d ∧ d ≤ w.stop

instance (w : DateWindow) (d : ℤ) : Decidable (dateInWindow w d) := by
  unfold dateInWindow
  infer_instance

/-- A (possibly missing) close date lies in the window `w`; a missing date
lies in no window. -/
def closeDateInWindow (w : DateWindow) : Option ℤ → Prop
  | none => False
  | some d => dateInWindow w d

instance (w : DateWindow) : (cd : Option ℤ) → Decidable (closeDateInWindow w cd)
  | none => isFalse (fun h => h)
  | some d =>
      if h : dateInWindow w d then isTrue h else isFalse h

/-! ### The totals of the attempts made by the retry loop

`attemptsTrace` names, for a given starting RNG state, the dataset totals of
the successive attempts the retry loop of `generate` produces (cut off at
the attempt that breaks out of the loop). -/

def attemptsTrace (cfg : Settings) (accounts : List Account) (counts : List ℤ) :
    ℕ → Rng → List ℤ
  | 0, _ => []
  | fuel + 1, r =>
    match amountAttempt cfg accounts counts r with
    | .error _ => []
    | .ok (m, r2) =>
        if cfg.TOTAL_PIPELINE_MIN ≤ mTotal m ∧ mTotal m ≤ cfg.TOTAL_PIPELINE_MAX then
          [mTotal m]
        else mTotal m :: attemptsTrace cfg accounts counts fuel r2

/-! ### Concrete fixtures used by the witnesses -/

def cfgW : Settings where
  DEFAULT_SEED := 0
  NUM_REPS := 1
  NUM_ACCOUNTS := 1
  NUM_OPPORTUNITIES := 2
  PARETO_ALPHA := Q.ofInt 1
  REVENUE_SCALE_DOLLARS := 100
  REVENUE_CAP_DOLLARS := 1000000
  REVENUE_PER_EMPLOYEE_MIN := Q.ofInt 1
  REVENUE_PER_EMPLOYEE_MAX := Q.ofInt 1
  DEVELOPER_PCT_MIN := Q.ofInt 1
  DEVELOPER_PCT_MAX := Q.ofInt 1
  IS_CUSTOMER_RATE := ⟨1, 2⟩
  PRODUCTS := ["Devin", "Windsurf"]
  OPPS_PER_ACCOUNT_MIN := 0
  OPPS_PER_ACCOUNT_MAX := 2
  TAM_PER_DEVELOPER := 1000
  COVERAGE_PCT_MIN := ⟨1, 2⟩
  COVERAGE_PCT_MAX := ⟨1, 2⟩
  AMOUNT_MULTIPLIER_MIN := Q.ofInt 1
  AMOUNT_MULTIPLIER_MAX := Q.ofInt 1
  RECENT_CLOSE_WINDOW := ⟨100, 110⟩
  FUTURE_CLOSE_WINDOW := ⟨111, 120⟩
  RECENT_CLOSE_PCT := ⟨1, 2⟩
  MISSING_CLOSE_PCT := ⟨1, 20⟩
  TOTAL_PIPELINE_TARGET := 1000
  TOTAL_PIPELINE_MIN := 500
  TOTAL_PIPELINE_MAX := 2000
  AMOUNT_RETRY_LIMIT := 3
  QUOTA_MULTIPLIER_ON_TERRITORY_PIPELINE := ⟨1, 2⟩
  QUOTA_MIN := 1
  QUOTA_MAX := 10000

def rngW : Rng := ⟨fun _ => 0, fun _ => Q.ofInt 1, 0⟩

def fsW : ℤ → Rng := fun _ => rngW

def inputsW : GenInputs :=
  { first_names := ["Ann"], last_names := ["Lee"], nouns := ["Acme"],
    suffixes := ["Inc"], industries_vocab := ["Tech"], stages := ["Open"],
    state_to_region := [("CA", "West")] }

def resW : GenOut :=
  { reps := [{ id := 1, name := "Ann Lee", homeState := "CA", region := "West",
               quota := 500, territoryId := 1 }],
    accounts := [{ id := 1, name := "Acme Inc", annualRevenue := 100,
                   numDevelopers := 100, state := "CA", industry := "Tech",
                   isCustomer := false, inPipeline := true, repId := 1,
                   territoryId := 1 }],
    opportunities := [{ id := 1, name := "Acme Inc Devin", amount := 500,
                        stage := "Open", closeDate := some 100, repId := 1,
                        accountId := 1 },
                      { id := 2, name := "Acme Inc Devin", amount := 500,
                        stage := "Open", closeDate := some 111, repId := 1,
                        accountId := 1 }],
    territories := [{ id := 1, name := "Tech Territory" }] }

/-- A single concrete account used by stage-level witnesses. -/
def acctW : Account :=
  { id := 1, name := "Acme Inc", annualRevenue := 100, numDevelopers := 100,
    state := "", industry := "Tech", isCustomer := false, inPipeline := false,
    repId := 1, territoryId := 1 }

/-- A configuration whose pipeline target range is unreachable (hard TAM
caps keep every attempt at a total of 100). -/
def cfgE : Settings := { cfgW with TAM_PER_DEVELOPER := 1 }

/-- A configuration with a zero-width opportunity band. -/
def cfgZ : Settings :=
  { cfgW with OPPS_PER_ACCOUNT_MIN := 0, OPPS_PER_ACCOUNT_MAX := 0 }

/-! ### Totality of the amount attempt -/

def Total {α : Type} (x : GenM α) : Prop := ∀ r, ∃ p, x r = Except.ok p

/-! ### The spec's global scale factor

`specScaleFactor` is modelled from the specification's words: `k_ideal =
target / currentTotal`; if `k_ideal < 1` it is the applied factor,
otherwise the applied factor is `min(k_ideal, k_max)` with `k_max` the
smallest `TAM / accountTotal` ratio over the accounts with a positive
opportunity total. -/

def specKIdeal (cfg : Settings) (accounts : List Account)
    (m : List (ℤ × List ℤ)) : ℚ :=
  (cfg.TOTAL_PIPELINE_TARGET : ℚ) / (scaleTotal m accounts : ℚ)

def specHeadroomRatios (cfg : Settings) (accounts : List Account)
    (m : List (ℤ × List ℤ)) : List ℚ :=
  (accounts.filter (fun a => 0 < acctTotalIn m a.id)).map
    (fun a => ((cfg.TAM_PER_DEVELOPER * a.numDevelopers : ℤ) : ℚ) /
      (acctTotalIn m a.id : ℚ))

def specScaleFactor (cfg : Settings) (accounts : List Account)
    (m : List (ℤ × List ℤ)) : ℚ :=
  if specKIdeal cfg accounts m < 1 then specKIdeal cfg accounts m
  else
    match specHeadroomRatios cfg accounts m with
    | [] => specKIdeal cfg accounts m
    | r :: rest => min (specKIdeal cfg accounts m) (rest.foldl min r)

/-- The exact-fraction headroom ratios computed by the `k_max` fold. -/
def ratiosQ (cfg : Settings) (m : List (ℤ × List ℤ)) (l : List Account) :
    List Q :=
  (l.filter (fun a => 0 < acctTotalIn m a.id)).map
    (fun a => (Q.ofInt (cfg.TAM_PER_DEVELOPER * a.numDevelopers)).div
      (Q.ofInt (acctTotalIn m a.id)))

end Gen

/-! ### Semantics lemmas for `Q` -/

theorem Q.toRat_ofInt (n : ℤ) : (Q.ofInt n).toRat = (n : ℚ) := by
  simp [Q.toRat, Q.ofInt]

theorem Q.den_ne_zero {a : Q} (ha : a.WFQ) : (a.den : ℚ) ≠ 0 := by
  exact_mod_cast ne_of_gt (by exact_mod_cast ha)

theorem Q.WFQ_add {a b : Q} (ha : a.WFQ) (hb : b.WFQ) : (a.add b).WFQ :=
  mul_pos ha hb

theorem Q.WFQ_sub {a b : Q} (ha : a.WFQ) (hb : b.WFQ) : (a.sub b).WFQ :=
  mul_pos ha hb

theorem Q.WFQ_mul {a b : Q} (ha : a.WFQ) (hb : b.WFQ) : (a.mul b).WFQ :=
  mul_pos ha hb

theorem Q.WFQ_ofInt (n : ℤ) : (Q.ofInt n).WFQ := by
  simp [Q.ofInt, Q.WFQ]

theorem Q.toRat_add {a b : Q} (ha : a.WFQ) (hb : b.WFQ) :
    (a.add b).toRat = a.toRat + b.toRat := by
  have h1 := Q.den_ne_zero ha
  have h2 := Q.den_ne_zero hb
  simp only [Q.toRat, Q.add]
  push_cast
  field_simp
  try ring

theorem Q.toRat_sub {a b : Q} (ha : a.WFQ) (hb : b.WFQ) :
    (a.sub b).toRat = a.toRat - b.toRat := by
  have h1 := Q.den_ne_zero ha
  have h2 := Q.den_ne_zero hb
  simp only [Q.toRat, Q.sub]
  push_cast
  field_simp
  try ring

theorem Q.toRat_mul {a b : Q} (ha : a.WFQ) (hb : b.WFQ) :
    (a.mul b).toRat = a.toRat * b.toRat := by
  have h1 := Q.den_ne_zero ha
  have h2 := Q.den_ne_zero hb
  simp only [Q.toRat, Q.mul]
  push_cast
  field_simp
  try ring

theorem Q.toRat_div {a b : Q} (ha : a.WFQ) (hb : b.WFQ) :
    (a.div b).toRat = a.toRat / b.toRat := by
  have h1 := Q.den_ne_zero ha
  have h2 := Q.den_ne_zero hb
  by_cases hnum : b.num = 0
  · simp [Q.div, Q.mul, Q.inv, Q.toRat, hnum]
  · simp only [Q.div, Q.mul, Q.inv, Q.toRat]
    by_cases hpos : 0 ≤ b.num
    · have h3 : (b.num : ℚ) ≠ 0 := by exact_mod_cast hnum
      rw [if_pos hpos]
      push_cast
      field_simp
      try ring
    · have h3 : (b.num : ℚ) ≠ 0 := by exact_mod_cast hnum
      rw [if_neg hpos]
      push_cast
      field_simp
      try ring

theorem Q.WFQ_div {a b : Q} (ha : a.WFQ) (hb : b.WFQ) (hnz : b.num ≠ 0) :
    (a.div b).WFQ := by
  unfold Q.div Q.mul Q.inv Q.WFQ
  by_cases hpos : 0 ≤ b.num
  · have : 0 < b.num := lt_of_le_of_ne hpos (Ne.symm hnz)
    simpa [hpos] using mul_pos ha this
  · have : 0 < -b.num := by omega
    simpa [hpos] using mul_pos ha this

theorem Q.ltQ_iff {a b : Q} (ha : a.WFQ) (hb : b.WFQ) :
    a.ltQ b ↔ a.toRat < b.toRat := by
  unfold Q.ltQ Q.toRat
  rw [div_lt_div_iff (by exact_mod_cast ha) (by exact_mod_cast hb)]
  constructor
  · intro h; exact_mod_cast h
  · intro h; exact_mod_cast h

theorem Q.leQ_iff {a b : Q} (ha : a.WFQ) (hb : b.WFQ) :
    a.leQ b ↔ a.toRat ≤ b.toRat := by
  unfold Q.leQ Q.toRat
  rw [div_le_div_iff (by exact_mod_cast ha) (by exact_mod_cast hb)]
  constructor
  · intro h; exact_mod_cast h
  · intro h; exact_mod_cast h

theorem Q.floorQ_eq {a : Q} (ha : a.WFQ) : a.floorQ = ⌊a.toRat⌋ := by
  unfold Q.floorQ Q.toRat
  rw [Int.fdiv_eq_ediv _ (le_of_lt ha)]
  have h : ((a.den : ℚ)) = ((a.den.toNat : ℕ) : ℚ) := by
    exact_mod_cast congrArg (fun z : ℤ => (z : ℚ)) (Int.toNat_of_nonneg (le_of_lt ha)).symm
  rw [h, Rat.floor_intCast_div_natCast]
  conv_lhs => rw [← Int.toNat_of_nonneg (le_of_lt ha)]

theorem Q.toRat_minQ (a b : Q) : (a.minQ b).toRat = a.toRat ∨ (a.minQ b).toRat = b.toRat := by
  unfold Q.minQ
  by_cases h : a.leQ b <;> simp [h]

theorem Q.minQ_eq_min {a b : Q} (ha : a.WFQ) (hb : b.WFQ) :
    (a.minQ b).toRat = min a.toRat b.toRat := by
  unfold Q.minQ
  by_cases h : a.leQ b
  · rw [if_pos h, min_eq_left ((Q.leQ_iff ha hb).mp h)]
  · rw [if_neg h]
    have := not_le.mp (fun hc => h ((Q.leQ_iff ha hb).mpr hc))
    rw [min_eq_right (le_of_lt this)]

theorem Q.WFQ_minQ {a b : Q} (ha : a.WFQ) (hb : b.WFQ) : (a.minQ b).WFQ := by
  unfold Q.minQ
  by_cases h : a.leQ b <;> simp [h, ha, hb]

theorem pyRound_eq {a : Q} (ha : a.WFQ) : pyRound a = ratRound a.toRat := by
  unfold pyRound ratRound
  have hfl : a.floorQ = ⌊a.toRat⌋ := Q.floorQ_eq ha
  have hwff : (Q.ofInt a.floorQ).WFQ := Q.WFQ_ofInt _
  have hsub : (a.sub (Q.ofInt a.floorQ)).toRat = a.toRat - (⌊a.toRat⌋ : ℚ) := by
    rw [Q.toRat_sub ha hwff, Q.toRat_ofInt, hfl]
  have hhalf : (⟨1, 2⟩ : Q).WFQ := by norm_num [Q.WFQ]
  have hhalfv : (⟨1, 2⟩ : Q).toRat = 1/2 := by norm_num [Q.toRat]
  have h1 : (a.sub (Q.ofInt a.floorQ)).ltQ ⟨1, 2⟩ ↔ a.toRat - (⌊a.toRat⌋ : ℚ) < 1/2 := by
    rw [Q.ltQ_iff (Q.WFQ_sub ha hwff) hhalf, hsub, hhalfv]
  have h2 : Q.ltQ ⟨1, 2⟩ (a.sub (Q.ofInt a.floorQ)) ↔ (1:ℚ)/2 < a.toRat - (⌊a.toRat⌋ : ℚ) := by
    rw [Q.ltQ_iff hhalf (Q.WFQ_sub ha hwff), hsub, hhalfv]
  by_cases hc1 : a.toRat - (⌊a.toRat⌋ : ℚ) < 1/2
  · rw [if_pos (h1.mpr hc1), if_pos hc1, hfl]
  · rw [if_neg (fun hx => hc1 (h1.mp hx)), if_neg hc1]
    by_cases hc2 : (1:ℚ)/2 < a.toRat - (⌊a.toRat⌋ : ℚ)
    · rw [if_pos (h2.mpr hc2), if_pos hc2, hfl]
    · rw [if_neg (fun hx => hc2 (h2.mp hx)), if_neg hc2, hfl]

theorem ratRound_intCast (n : ℤ) : ratRound (n : ℚ) = n := by
  unfold ratRound
  rw [Int.floor_intCast]
  norm_num

namespace Gen

/-! ### Inversion lemmas for the generator monad -/

theorem bind_eq_gBind {α β : Type} (x : GenM α) (f : α → GenM β) :
    x >>= f = gBind x f := rfl

theorem pure_eq_gPure {α : Type} (a : α) : (pure a : GenM α) = gPure a := rfl

@[simp]
theorem gBind_ok_iff {α β : Type} {x : GenM α} {f : α → GenM β} {r : Rng}
    {p : β × Rng} :
    gBind x f r = Except.ok p ↔ ∃ a r1, x r = Except.ok (a, r1) ∧ f a r1 = Except.ok p := by
  unfold gBind
  cases hx : x r with
  | error e => simp
  | ok q =>
      obtain ⟨a, r1⟩ := q
      constructor
      · intro h
        exact ⟨a, r1, rfl, h⟩
      · rintro ⟨a2, r2, h1, h2⟩
        injection h1 with h1
        injection h1 with h3 h4
        subst h3
        subst h4
        exact h2

@[simp]
theorem genBind_ok_iff {α β : Type} {x : GenM α} {f : α → GenM β} {r : Rng}
    {p : β × Rng} :
    (x >>= f) r = Except.ok p ↔ ∃ a r1, x r = Except.ok (a, r1) ∧ f a r1 = Except.ok p :=
  gBind_ok_iff

@[simp]
theorem gPure_ok_iff {α : Type} {a : α} {r : Rng} {p : α × Rng} :
    gPure a r = Except.ok p ↔ p = (a, r) := by
  unfold gPure
  constructor
  · intro h
    injection h with h
    exact h.symm
  · intro h
    rw [h]

@[simp]
theorem genPure_ok_iff {α : Type} {a : α} {r : Rng} {p : α × Rng} :
    (pure a : GenM α) r = Except.ok p ↔ p = (a, r) :=
  gPure_ok_iff

@[simp]
theorem gThrow_ok_iff {α : Type} {e : String} {r : Rng} {p : α × Rng} :
    gThrow e r = Except.ok p ↔ False := by
  unfold gThrow
  simp

/-! ### Behaviour of the sampling primitives -/

theorem choiceM_ok {α : Type} {l : List α} {r : Rng} {x : α} {r2 : Rng}
    (h : choiceM l r = Except.ok (x, r2)) : x ∈ l ∧ r2 = r.next := by
  unfold choiceM at h
  by_cases hl : 0 < l.length
  · rw [dif_pos hl] at h
    injection h with h
    injection h with h1 h2
    subst h1
    exact ⟨List.get_mem l _ _, h2.symm⟩
  · rw [dif_neg hl] at h
    cases h

theorem randomM_ok {r : Rng} {x : Q} {r2 : Rng}
    (h : randomM r = Except.ok (x, r2)) : r2 = r.next := by
  unfold randomM at h
  injection h with h
  injection h with h1 h2
  exact h2.symm

theorem randintM_ok {a b : ℤ} {r : Rng} {x : ℤ} {r2 : Rng}
    (h : randintM a b r = Except.ok (x, r2)) :
    a ≤ x ∧ x ≤ b ∧ r2 = r.next := by
  unfold randintM at h
  by_cases hab : b < a
  · rw [if_pos hab] at h
    cases h
  · rw [if_neg hab] at h
    injection h with h
    injection h with h1 h2
    push_neg at hab
    have hpos : 0 < (b - a + 1).toNat := by omega
    have hm : r.ints r.pos % (b - a + 1).toNat < (b - a + 1).toNat :=
      Nat.mod_lt _ hpos
    have hc : ((r.ints r.pos % (b - a + 1).toNat : ℕ) : ℤ) < b - a + 1 := by
      have hcast : ((r.ints r.pos % (b - a + 1).toNat : ℕ) : ℤ) < ((b - a + 1).toNat : ℤ) := by
        exact_mod_cast hm
      rwa [Int.toNat_of_nonneg (by omega : (0:ℤ) ≤ b - a + 1)] at hcast
    constructor
    · omega
    constructor
    · omega
    · exact h2.symm

theorem dateBetweenM_ok {startO stopO : ℤ} {r : Rng} {d : ℤ} {r2 : Rng}
    (h : dateBetweenM startO stopO r = Except.ok (d, r2)) :
    startO ≤ d ∧ d ≤ stopO := by
  unfold dateBetweenM at h
  by_cases hw : stopO < startO
  · rw [if_pos hw] at h
    simp at h
  · rw [if_neg hw] at h
    rw [bind_eq_gBind] at h
    rw [gBind_ok_iff] at h
    obtain ⟨off, r1, h1, h2⟩ := h
    obtain ⟨ho1, ho2, _⟩ := randintM_ok h1
    rw [genPure_ok_iff] at h2
    injection h2 with h2 h3
    omega

theorem gMapM_ok {α β : Type} {f : α → GenM β} :
    ∀ {l : List α} {r : Rng} {res : List β} {r2 : Rng},
      gMapM f l r = Except.ok (res, r2) →
      List.Forall₂ (fun a b => ∃ s s2, f a s = Except.ok (b, s2)) l res := by
  intro l
  induction l with
  | nil =>
      intro r res r2 h
      unfold gMapM at h
      rw [genPure_ok_iff] at h
      injection h with h1 h2
      subst h1
      exact List.Forall₂.nil
  | cons x xs ih =>
      intro r res r2 h
      unfold gMapM at h
      rw [bind_eq_gBind, gBind_ok_iff] at h
      obtain ⟨y, r1, hy, h⟩ := h
      rw [bind_eq_gBind, gBind_ok_iff] at h
      obtain ⟨ys, rmid, hys, h⟩ := h
      rw [genPure_ok_iff] at h
      injection h with h1 h2
      subst h1
      exact List.Forall₂.cons ⟨r, r1, hy⟩ (ih hys)

/-! ### Small list facts -/

theorem sum_nonpos_of_all {l : List ℤ} (h : ∀ x ∈ l, x ≤ 0) : l.sum ≤ 0 := by
  induction l with
  | nil => simp
  | cons x xs ih =>
      rw [List.sum_cons]
      have hx := h x (List.mem_cons_self x xs)
      have := ih (fun y hy => h y (List.mem_cons_of_mem x hy))
      omega

theorem sum_set_getD {l : List ℤ} {i : ℕ} (hi : i < l.length) (v : ℤ) :
    (l.set i v).sum = l.sum - l.getD i 0 + v := by
  have := List.sum_set' l i v
  rw [this]
  rw [dif_pos hi]
  rw [List.getD_eq_getElem l 0 hi]
  ring

/-! ### Properties of `_enforce_tam_int` -/

theorem argmax_fold_mem (l : List ℤ) :
    ∀ (js : List ℕ) (b : ℕ),
      js.foldl (fun best j => if l.getD best 0 < l.getD j 0 then j else best) b = b ∨
      js.foldl (fun best j => if l.getD best 0 < l.getD j 0 then j else best) b ∈ js := by
  intro js
  induction js with
  | nil => intro b; left; rfl
  | cons j js ih =>
      intro b
      rw [List.foldl_cons]
      by_cases hc : l.getD b 0 < l.getD j 0
      · rw [if_pos hc]
        rcases ih j with h | h
        · right; rw [h]; exact List.mem_cons_self j js
        · right; exact List.mem_cons_of_mem j h
      · rw [if_neg hc]
        rcases ih b with h | h
        · left; exact h
        · right; exact List.mem_cons_of_mem j h

theorem argmax_fold_ge (l : List ℤ) :
    ∀ (js : List ℕ) (b : ℕ),
      l.getD b 0 ≤
          l.getD (js.foldl (fun best j => if l.getD best 0 < l.getD j 0 then j else best) b) 0 ∧
        ∀ j ∈ js,
          l.getD j 0 ≤
            l.getD (js.foldl (fun best j => if l.getD best 0 < l.getD j 0 then j else best) b) 0 := by
  intro js
  induction js with
  | nil =>
      intro b
      exact ⟨le_refl _, by intro j hj; cases hj⟩
  | cons j js ih =>
      intro b
      rw [List.foldl_cons]
      by_cases hc : l.getD b 0 < l.getD j 0
      · rw [if_pos hc]
        refine ⟨le_trans (le_of_lt hc) (ih j).1, ?_⟩
        intro j2 hj2
        rcases List.mem_cons.mp hj2 with h | h
        · rw [h]; exact (ih j).1
        · exact (ih j).2 j2 h
      · rw [if_neg hc]
        push_neg at hc
        refine ⟨(ih b).1, ?_⟩
        intro j2 hj2
        rcases List.mem_cons.mp hj2 with h | h
        · rw [h]; exact le_trans hc (ih b).1
        · exact (ih b).2 j2 h

theorem argmaxIdx_lt {l : List ℤ} (hl : 0 < l.length) : argmaxIdx l < l.length := by
  unfold argmaxIdx
  rcases argmax_fold_mem l (List.range l.length) 0 with h | h
  · rw [h]; exact hl
  · exact List.mem_range.mp h

theorem argmaxIdx_ge (l : List ℤ) {j : ℕ} (hj : j < l.length) :
    l.getD j 0 ≤ l.getD (argmaxIdx l) 0 :=
  (argmax_fold_ge l (List.range l.length) 0).2 j (List.mem_range.mpr hj)

theorem toNatSum_set :
    ∀ (l : List ℤ) (i : ℕ) (v : ℤ), i < l.length →
      (l.getD i 0).toNat + ((l.set i v).map Int.toNat).sum =
        v.toNat + (l.map Int.toNat).sum := by
  intro l
  induction l with
  | nil => intro i v h; simp at h
  | cons x xs ih =>
      intro i v h
      cases i with
      | zero => simp [List.set]; omega
      | succ n =>
          have hn : n < xs.length := by simpa using h
          have hih := ih n v hn
          simp only [List.set, List.getD_cons_succ, List.map_cons, List.sum_cons]
          omega

theorem toNatSum_zero_all_nonpos {l : List ℤ}
    (h : (l.map Int.toNat).sum = 0) : ∀ x ∈ l, x ≤ 0 := by
  intro x hx
  have hmem : x.toNat ∈ l.map Int.toNat := List.mem_map_of_mem Int.toNat hx
  have := (List.sum_eq_zero_iff.mp h) _ hmem
  omega

theorem tamFixupLoop_sum_le {tam : ℤ} (htam : 0 ≤ tam) :
    ∀ (fuel : ℕ) (scaled : List ℤ),
      (scaled.map Int.toNat).sum ≤ fuel →
      (tamFixupLoop tam fuel scaled).sum ≤ tam := by
  intro fuel
  induction fuel with
  | zero =>
      intro scaled hm
      unfold tamFixupLoop
      have h0 : (scaled.map Int.toNat).sum = 0 := Nat.le_zero.mp hm
      exact le_trans (sum_nonpos_of_all (toNatSum_zero_all_nonpos h0)) htam
  | succ fuel ih =>
      intro scaled hm
      unfold tamFixupLoop
      by_cases hc : tam < scaled.sum ∧ ∃ x ∈ scaled, 0 < x
      · rw [if_pos hc]
        obtain ⟨hsum, x, hxmem, hxpos⟩ := hc
        obtain ⟨jx, hjx, hjxe⟩ := List.mem_iff_getElem.mp hxmem
        have hlen : 0 < scaled.length := by omega
        have hjget : scaled.getD jx 0 = x := by
          rw [List.getD_eq_getElem scaled 0 hjx, hjxe]
        have hge : x ≤ scaled.getD (argmaxIdx scaled) 0 := by
          rw [← hjget]; exact argmaxIdx_ge scaled hjx
        have hipos : 0 < scaled.getD (argmaxIdx scaled) 0 := lt_of_lt_of_le hxpos hge
        rw [if_neg (by omega)]
        apply ih
        have hset := toNatSum_set scaled (argmaxIdx scaled)
          (scaled.getD (argmaxIdx scaled) 0 - 1) (argmaxIdx_lt hlen)
        omega
      · rw [if_neg hc]
        push_neg at hc
        by_cases hs : tam < scaled.sum
        · have hall : ∀ x ∈ scaled, x ≤ 0 := by
            intro x hx
            have := hc hs x hx
            omega
          exact le_trans (sum_nonpos_of_all hall) htam
        · omega

theorem enforce_tam_sum_le (amounts : List ℤ) {tam : ℤ} (htam : 0 ≤ tam) :
    (_enforce_tam_int amounts tam).sum ≤ tam := by
  unfold _enforce_tam_int
  by_cases h1 : amounts.sum ≤ tam
  · rw [if_pos h1]; exact h1
  · rw [if_neg h1]
    by_cases h2 : amounts.sum ≤ 0
    · omega
    · rw [if_neg h2]
      exact tamFixupLoop_sum_le htam _ _ (le_refl _)

theorem enforce_tam_unchanged {amounts : List ℤ} {tam : ℤ}
    (h : amounts.sum ≤ tam) : _enforce_tam_int amounts tam = amounts := by
  unfold _enforce_tam_int
  rw [if_pos h]

theorem enforce_tam_idem (amounts : List ℤ) {tam : ℤ} (htam : 0 ≤ tam) :
    _enforce_tam_int (_enforce_tam_int amounts tam) tam = _enforce_tam_int amounts tam :=
  enforce_tam_unchanged (enforce_tam_sum_le amounts htam)

/-! ### Properties of `_reconcile_opp_counts` -/

theorem gBind_error {α β : Type} {x : GenM α} {f : α → GenM β} {r : Rng}
    {e : String} (h : x r = Except.error e) : gBind x f r = Except.error e := by
  unfold gBind
  rw [h]

theorem reconcileUp_sum {hi target : ℤ} :
    ∀ (fuel : ℕ) (counts : List ℤ) (r : Rng) (res : List ℤ) (r2 : Rng),
      reconcileUp hi target fuel counts r = Except.ok (res, r2) →
      (target - counts.sum).toNat ≤ fuel →
      res.sum = max counts.sum target := by
  intro fuel
  induction fuel with
  | zero =>
      intro counts r res r2 h hf
      unfold reconcileUp at h
      rw [genPure_ok_iff] at h
      injection h with h1 h2
      subst h1
      omega
  | succ fuel ih =>
      intro counts r res r2 h hf
      unfold reconcileUp at h
      by_cases hlt : counts.sum < target
      · rw [if_pos hlt] at h
        by_cases hemp : ((List.range counts.length).filter
            (fun i => decide (counts.getD i 0 < hi))).isEmpty
        · rw [if_pos hemp] at h
          simp at h
        · rw [if_neg hemp] at h
          rw [bind_eq_gBind, gBind_ok_iff] at h
          obtain ⟨idx, r1, hch, hrec⟩ := h
          obtain ⟨hidxr, _⟩ := choiceM_ok hch
          have hidxlt : idx < counts.length :=
            List.mem_range.mp (List.mem_of_mem_filter hidxr)
          have hsum2 : (counts.set idx (counts.getD idx 0 + 1)).sum = counts.sum + 1 := by
            rw [sum_set_getD hidxlt]
            ring
          have := ih _ r1 res r2 hrec (by omega)
          rw [hsum2] at this
          omega
      · rw [if_neg hlt] at h
        rw [genPure_ok_iff] at h
        injection h with h1 h2
        subst h1
        omega

theorem reconcileDown_sum {lo target : ℤ} :
    ∀ (fuel : ℕ) (counts : List ℤ) (r : Rng) (res : List ℤ) (r2 : Rng),
      reconcileDown lo target fuel counts r = Except.ok (res, r2) →
      (counts.sum - target).toNat ≤ fuel →
      res.sum = min counts.sum target := by
  intro fuel
  induction fuel with
  | zero =>
      intro counts r res r2 h hf
      unfold reconcileDown at h
      rw [genPure_ok_iff] at h
      injection h with h1 h2
      subst h1
      omega
  | succ fuel ih =>
      intro counts r res r2 h hf
      unfold reconcileDown at h
      by_cases hlt : target < counts.sum
      · rw [if_pos hlt] at h
        by_cases hemp : ((List.range counts.length).filter
            (fun i => decide (lo < counts.getD i 0))).isEmpty
        · rw [if_pos hemp] at h
          simp at h
        · rw [if_neg hemp] at h
          rw [bind_eq_gBind, gBind_ok_iff] at h
          obtain ⟨idx, r1, hch, hrec⟩ := h
          obtain ⟨hidxr, _⟩ := choiceM_ok hch
          have hidxlt : idx < counts.length :=
            List.mem_range.mp (List.mem_of_mem_filter hidxr)
          have hsum2 : (counts.set idx (counts.getD idx 0 - 1)).sum = counts.sum - 1 := by
            rw [sum_set_getD hidxlt]
            ring
          have := ih _ r1 res r2 hrec (by omega)
          rw [hsum2] at this
          omega
      · rw [if_neg hlt] at h
        rw [genPure_ok_iff] at h
        injection h with h1 h2
        subst h1
        omega

theorem reconcileUp_bounds {lo hi target : ℤ} :
    ∀ (fuel : ℕ) (counts : List ℤ) (r : Rng) (res : List ℤ) (r2 : Rng),
      reconcileUp hi target fuel counts r = Except.ok (res, r2) →
      (∀ c ∈ counts, lo ≤ c ∧ c ≤ hi) →
      ∀ c ∈ res, lo ≤ c ∧ c ≤ hi := by
  intro fuel
  induction fuel with
  | zero =>
      intro counts r res r2 h hb
      unfold reconcileUp at h
      rw [genPure_ok_iff] at h
      injection h with h1 h2
      subst h1
      exact hb
  | succ fuel ih =>
      intro counts r res r2 h hb
      unfold reconcileUp at h
      by_cases hlt : counts.sum < target
      · rw [if_pos hlt] at h
        by_cases hemp : ((List.range counts.length).filter
            (fun i => decide (counts.getD i 0 < hi))).isEmpty
        · rw [if_pos hemp] at h
          simp at h
        · rw [if_neg hemp] at h
          rw [bind_eq_gBind, gBind_ok_iff] at h
          obtain ⟨idx, r1, hch, hrec⟩ := h
          obtain ⟨hidxr, _⟩ := choiceM_ok hch
          have hidxlt : idx < counts.length :=
            List.mem_range.mp (List.mem_of_mem_filter hidxr)
          have hpred : counts.getD idx 0 < hi := by
            have := List.of_mem_filter hidxr
            simpa using this
          have hmemv : counts.getD idx 0 ∈ counts := by
            rw [List.getD_eq_getElem counts 0 hidxlt]
            exact List.getElem_mem hidxlt
          refine ih _ r1 res r2 hrec ?_
          intro c hc
          rcases List.mem_or_eq_of_mem_set hc with hcm | hce
          · exact hb c hcm
          · have := hb _ hmemv
            omega
      · rw [if_neg hlt] at h
        rw [genPure_ok_iff] at h
        injection h with h1 h2
        subst h1
        exact hb

theorem reconcileDown_bounds {lo hi target : ℤ} :
    ∀ (fuel : ℕ) (counts : List ℤ) (r : Rng) (res : List ℤ) (r2 : Rng),
      reconcileDown lo target fuel counts r = Except.ok (res, r2) →
      (∀ c ∈ counts, lo ≤ c ∧ c ≤ hi) →
      ∀ c ∈ res, lo ≤ c ∧ c ≤ hi := by
  intro fuel
  induction fuel with
  | zero =>
      intro counts r res r2 h hb
      unfold reconcileDown at h
      rw [genPure_ok_iff] at h
      injection h with h1 h2
      subst h1
      exact hb
  | succ fuel ih =>
      intro counts r res r2 h hb
      unfold reconcileDown at h
      by_cases hlt : target < counts.sum
      · rw [if_pos hlt] at h
        by_cases hemp : ((List.range counts.length).filter
            (fun i => decide (lo < counts.getD i 0))).isEmpty
        · rw [if_pos hemp] at h
          simp at h
        · rw [if_neg hemp] at h
          rw [bind_eq_gBind, gBind_ok_iff] at h
          obtain ⟨idx, r1, hch, hrec⟩ := h
          obtain ⟨hidxr, _⟩ := choiceM_ok hch
          have hidxlt : idx < counts.length :=
            List.mem_range.mp (List.mem_of_mem_filter hidxr)
          have hpred : lo < counts.getD idx 0 := by
            have := List.of_mem_filter hidxr
            simpa using this
          have hmemv : counts.getD idx 0 ∈ counts := by
            rw [List.getD_eq_getElem counts 0 hidxlt]
            exact List.getElem_mem hidxlt
          refine ih _ r1 res r2 hrec ?_
          intro c hc
          rcases List.mem_or_eq_of_mem_set hc with hcm | hce
          · exact hb c hcm
          · have := hb _ hmemv
            omega
      · rw [if_neg hlt] at h
        rw [genPure_ok_iff] at h
        injection h with h1 h2
        subst h1
        exact hb

theorem reconcile_opp_counts_ok {cfg : Settings} {counts : List ℤ} {target : ℤ}
    {r : Rng} {res : List ℤ} {r2 : Rng}
    (h : _reconcile_opp_counts cfg counts target r = Except.ok (res, r2)) :
    res.sum = target ∧
      ((∀ c ∈ counts, cfg.OPPS_PER_ACCOUNT_MIN ≤ c ∧ c ≤ cfg.OPPS_PER_ACCOUNT_MAX) →
        ∀ c ∈ res, cfg.OPPS_PER_ACCOUNT_MIN ≤ c ∧ c ≤ cfg.OPPS_PER_ACCOUNT_MAX) := by
  unfold _reconcile_opp_counts at h
  rw [bind_eq_gBind, gBind_ok_iff] at h
  obtain ⟨c1, r1, hup, hdown⟩ := h
  have hupsum := reconcileUp_sum _ _ _ _ _ hup (le_refl _)
  have hdownsum := reconcileDown_sum _ _ _ _ _ hdown (by omega)
  constructor
  · omega
  · intro hb
    exact reconcileDown_bounds _ _ _ _ _ hdown
      (reconcileUp_bounds _ _ _ _ _ hup hb)

theorem reconcile_infeasible_zero {cfg : Settings} {counts : List ℤ} {target : ℤ}
    {r : Rng} (hmax : cfg.OPPS_PER_ACCOUNT_MAX = 0) (htarget : 0 < target)
    (hzero : ∀ c ∈ counts, c = 0) :
    _reconcile_opp_counts cfg counts target r =
      Except.error "Cannot add opportunities: no eligible accounts < max" := by
  unfold _reconcile_opp_counts
  rw [bind_eq_gBind]
  apply gBind_error
  have hsum : counts.sum = 0 := List.sum_eq_zero hzero
  have hfuel : ∃ k, (target - counts.sum).toNat = k + 1 := by
    refine ⟨(target - counts.sum).toNat - 1, ?_⟩
    omega
  obtain ⟨k, hk⟩ := hfuel
  rw [hk]
  unfold reconcileUp
  rw [if_pos (by omega)]
  have hfil : (List.range counts.length).filter
      (fun i => decide (counts.getD i 0 < cfg.OPPS_PER_ACCOUNT_MAX)) = [] := by
    rw [List.filter_eq_nil]
    intro i hi
    have hilt : i < counts.length := List.mem_range.mp hi
    have hgd : counts.getD i 0 = 0 := by
      rw [List.getD_eq_getElem counts 0 hilt]
      exact hzero _ (List.getElem_mem hilt)
    rw [decide_eq_true_eq, hgd, hmax]
    omega
  rw [if_pos (by rw [hfil]; rfl)]
  rfl

/-! ### Properties of the amount pipeline -/

theorem amountsForOneAccount_ok {cfg : Settings} {acct : Account} {n : ℤ}
    {r : Rng} {p : ℤ × List ℤ} {r2 : Rng}
    (h : amountsForOneAccount cfg acct n r = Except.ok (p, r2)) :
    p.1 = acct.id ∧
      (0 ≤ cfg.TAM_PER_DEVELOPER * acct.numDevelopers →
        p.2.sum ≤ cfg.TAM_PER_DEVELOPER * acct.numDevelopers) := by
  unfold amountsForOneAccount at h
  by_cases hn : n ≤ 0
  · rw [if_pos hn] at h
    rw [genPure_ok_iff] at h
    injection h with h1 h2
    subst h1
    exact ⟨rfl, by intro ht; simpa using ht⟩
  · rw [if_neg hn] at h
    rw [bind_eq_gBind, gBind_ok_iff] at h
    obtain ⟨cov, r1, hcov, h⟩ := h
    rw [bind_eq_gBind, gBind_ok_iff] at h
    obtain ⟨raw, rmid, hraw, h⟩ := h
    rw [genPure_ok_iff] at h
    injection h with h1 h2
    subst h1
    refine ⟨rfl, ?_⟩
    intro ht
    exact enforce_tam_sum_le raw ht

theorem genAmountsLoop_ok {cfg : Settings} :
    ∀ {pairs : List (Account × ℤ)} {r : Rng} {m : List (ℤ × List ℤ)} {r2 : Rng},
      genAmountsLoop cfg pairs r = Except.ok (m, r2) →
      List.Forall₂
        (fun (p : Account × ℤ) (q : ℤ × List ℤ) =>
          q.1 = p.1.id ∧
            (0 ≤ cfg.TAM_PER_DEVELOPER * p.1.numDevelopers →
              q.2.sum ≤ cfg.TAM_PER_DEVELOPER * p.1.numDevelopers))
        pairs m := by
  intro pairs
  induction pairs with
  | nil =>
      intro r m r2 h
      unfold genAmountsLoop at h
      rw [genPure_ok_iff] at h
      injection h with h1 h2
      subst h1
      exact List.Forall₂.nil
  | cons p ps ih =>
      intro r m r2 h
      obtain ⟨acct, n⟩ := p
      unfold genAmountsLoop at h
      rw [bind_eq_gBind, gBind_ok_iff] at h
      obtain ⟨entry, r1, hentry, h⟩ := h
      rw [bind_eq_gBind, gBind_ok_iff] at h
      obtain ⟨tail, rmid, htail, h⟩ := h
      rw [genPure_ok_iff] at h
      injection h with h1 h2
      subst h1
      exact List.Forall₂.cons (amountsForOneAccount_ok hentry) (ih htail)

theorem genAmounts_keys {cfg : Settings} {accounts : List Account} {counts : List ℤ}
    {r : Rng} {m : List (ℤ × List ℤ)} {r2 : Rng}
    (h : _generate_amounts_for_accounts cfg accounts counts r = Except.ok (m, r2)) :
    m.map Prod.fst = accounts.map (fun a => a.id) ∧
      List.Forall₂
        (fun (a : Account) (q : ℤ × List ℤ) =>
          0 ≤ cfg.TAM_PER_DEVELOPER * a.numDevelopers →
            q.2.sum ≤ cfg.TAM_PER_DEVELOPER * a.numDevelopers)
        accounts m := by
  unfold _generate_amounts_for_accounts at h
  by_cases hlen : accounts.length = counts.length
  · rw [if_pos hlen] at h
    have hf := genAmountsLoop_ok h
    have hfst : (accounts.zip counts).map Prod.fst = accounts :=
      List.map_fst_zip accounts counts (le_of_eq hlen)
    have hlen2 := hf.length_eq
    constructor
    · apply List.ext_getElem
      · simp only [List.length_map]
        rw [← hlen2]
        simp [List.length_zip]
        omega
      · intro i h1 h2
        have hi1 : i < (accounts.zip counts).length := by
          simp only [List.length_map] at h1
          omega
        have hi2 : i < accounts.length := by
          simp only [List.length_map] at h2
          exact h2
        have := (List.forall₂_iff_get.mp hf).2 i hi1 (by simpa using h1)
        simp only [List.getElem_map]
        rw [List.get_eq_getElem, List.get_eq_getElem] at this
        rw [List.getElem_zip] at this
        exact this.1
    · rw [List.forall₂_iff_get]
      constructor
      · rw [← hlen2]
        simp [List.length_zip]
        omega
      · intro i h1 h2
        have hi1 : i < (accounts.zip counts).length := by
          simp [List.length_zip]
          omega
        have := (List.forall₂_iff_get.mp hf).2 i hi1 h2
        rw [List.get_eq_getElem, List.get_eq_getElem] at this ⊢
        rw [List.getElem_zip] at this
        exact this.2
  · rw [if_neg hlen] at h
    simp at h

theorem dictGet_cons {k : ℤ} {v : List ℤ} {ms : List (ℤ × List ℤ)} {key : ℤ} :
    dictGet ((k, v) :: ms) key = if k = key then v else dictGet ms key := by
  unfold dictGet
  by_cases hk : k = key
  · rw [if_pos hk]
    rw [List.find?_cons]
    simp [hk]
  · rw [if_neg hk]
    rw [List.find?_cons]
    simp [hk]

theorem dictGet_map_accounts {accounts : List Account} {g : Account → ℤ × List ℤ}
    (hg : ∀ x, (g x).1 = x.id)
    (hnodup : (accounts.map (fun a => a.id)).Nodup) :
    ∀ a ∈ accounts, dictGet (accounts.map g) a.id = (g a).2 := by
  induction accounts with
  | nil => intro a ha; cases ha
  | cons b bs ih =>
      intro a ha
      rw [List.map_cons] at hnodup ⊢
      have hnd := List.nodup_cons.mp hnodup
      have hgb : g b = ((g b).1, (g b).2) := rfl
      rcases List.mem_cons.mp ha with hab | hmem
      · subst hab
        rw [hgb, dictGet_cons, if_pos (hg a)]
      · have hne : (g b).1 ≠ a.id := by
          rw [hg b]
          intro he
          exact hnd.1 (he ▸ List.mem_map_of_mem (fun x => x.id) hmem)
        rw [hgb, dictGet_cons, if_neg hne]
        exact ih hnd.2 a hmem

theorem forall₂_keys_dictGet {accounts : List Account} {m : List (ℤ × List ℤ)}
    {P : Account → List ℤ → Prop}
    (hkeys : m.map Prod.fst = accounts.map (fun a => a.id))
    (hnodup : (accounts.map (fun a => a.id)).Nodup)
    (hf : List.Forall₂ (fun (a : Account) (q : ℤ × List ℤ) => P a q.2) accounts m) :
    ∀ a ∈ accounts, P a (dictGet m a.id) := by
  induction accounts generalizing m with
  | nil => intro a ha; cases ha
  | cons b bs ih =>
      intro a ha
      cases m with
      | nil => cases hf
      | cons q ms =>
          obtain ⟨k, v⟩ := q
          rw [List.map_cons, List.map_cons] at hkeys
          injection hkeys with hk hkeys2
          have hk2 : k = b.id := hk
          rw [List.map_cons] at hnodup
          have hnd := List.nodup_cons.mp hnodup
          have hf2 := List.forall₂_cons.mp hf
          rcases List.mem_cons.mp ha with hab | hmem
          · subst hab
            rw [dictGet_cons, if_pos hk2]
            exact hf2.1
          · have hne : k ≠ a.id := by
              rw [hk2]
              intro he
              exact hnd.1 (he ▸ List.mem_map_of_mem (fun x => x.id) hmem)
            rw [dictGet_cons, if_neg hne]
            exact ih hkeys2 hnd.2 hf2.2 a hmem

theorem scaleOneAccount_fst (cfg : Settings) (m : List (ℤ × List ℤ)) (k : Q)
    (acct : Account) : (scaleOneAccount cfg m k acct).1 = acct.id := by
  unfold scaleOneAccount
  by_cases he : (dictGet m acct.id).isEmpty
  · rw [if_pos he]
  · rw [if_neg he]

theorem try_global_scale_keys (cfg : Settings) (accounts : List Account)
    (m : List (ℤ × List ℤ))
    (hkeys : m.map Prod.fst = accounts.map (fun a => a.id)) :
    (_try_global_scale cfg accounts m).map Prod.fst = accounts.map (fun a => a.id) := by
  unfold _try_global_scale
  by_cases h1 : scaleTotal m accounts ≤ 0
  · rw [if_pos h1]; exact hkeys
  · rw [if_neg h1]
    by_cases h2 : ((globalScaleK cfg accounts m).sub (Q.ofInt 1)).absQ.ltQ ⟨1, 1000000000000⟩
    · rw [if_pos h2]; exact hkeys
    · rw [if_neg h2]
      rw [List.map_map]
      apply List.map_congr_left
      intro a ha
      show (scaleOneAccount cfg m (globalScaleK cfg accounts m) a).1 = a.id
      exact scaleOneAccount_fst cfg m _ a

theorem try_global_scale_tam {cfg : Settings} {accounts : List Account}
    {m : List (ℤ × List ℤ)}
    (hnodup : (accounts.map (fun a => a.id)).Nodup)
    (htam : ∀ a ∈ accounts, 0 ≤ cfg.TAM_PER_DEVELOPER * a.numDevelopers)
    (hin : ∀ a ∈ accounts,
      (dictGet m a.id).sum ≤ cfg.TAM_PER_DEVELOPER * a.numDevelopers) :
    ∀ a ∈ accounts,
      (dictGet (_try_global_scale cfg accounts m) a.id).sum ≤
        cfg.TAM_PER_DEVELOPER * a.numDevelopers := by
  intro a ha
  unfold _try_global_scale
  by_cases h1 : scaleTotal m accounts ≤ 0
  · rw [if_pos h1]; exact hin a ha
  · rw [if_neg h1]
    by_cases h2 : ((globalScaleK cfg accounts m).sub (Q.ofInt 1)).absQ.ltQ ⟨1, 1000000000000⟩
    · rw [if_pos h2]; exact hin a ha
    · rw [if_neg h2]
      rw [dictGet_map_accounts (fun x => scaleOneAccount_fst cfg m _ x) hnodup a ha]
      unfold scaleOneAccount
      by_cases he : (dictGet m a.id).isEmpty
      · rw [if_pos he]
        have := htam a ha
        simpa using this
      · rw [if_neg he]
        exact enforce_tam_sum_le _ (htam a ha)

theorem amountAttempt_spec {cfg : Settings} {accounts : List Account}
    {counts : List ℤ} {r : Rng} {m : List (ℤ × List ℤ)} {r2 : Rng}
    (hnodup : (accounts.map (fun a => a.id)).Nodup)
    (htam : ∀ a ∈ accounts, 0 ≤ cfg.TAM_PER_DEVELOPER * a.numDevelopers)
    (h : amountAttempt cfg accounts counts r = Except.ok (m, r2)) :
    m.map Prod.fst = accounts.map (fun a => a.id) ∧
      ∀ a ∈ accounts,
        (dictGet m a.id).sum ≤ cfg.TAM_PER_DEVELOPER * a.numDevelopers := by
  unfold amountAttempt at h
  rw [bind_eq_gBind, gBind_ok_iff] at h
  obtain ⟨m0, r1, hgen, h⟩ := h
  rw [genPure_ok_iff] at h
  injection h with h1 h2
  subst h1
  obtain ⟨hkeys, hf⟩ := genAmounts_keys hgen
  have hin : ∀ a ∈ accounts,
      (dictGet m0 a.id).sum ≤ cfg.TAM_PER_DEVELOPER * a.numDevelopers := by
    have := forall₂_keys_dictGet (P := fun a v =>
      0 ≤ cfg.TAM_PER_DEVELOPER * a.numDevelopers →
        v.sum ≤ cfg.TAM_PER_DEVELOPER * a.numDevelopers) hkeys hnodup hf
    intro a ha
    exact this a ha (htam a ha)
  exact ⟨try_global_scale_keys cfg accounts m0 hkeys,
    try_global_scale_tam hnodup htam hin⟩

theorem amountRetryLoop_prop {cfg : Settings} {accounts : List Account}
    {counts : List ℤ} {P : List (ℤ × List ℤ) → Prop}
    (hattempt : ∀ r m r2,
      amountAttempt cfg accounts counts r = Except.ok (m, r2) → P m) :
    ∀ (fuel : ℕ) (best : Option (List (ℤ × List ℤ))) (bestDist : Option ℤ)
      (r : Rng) (res : Option (List (ℤ × List ℤ))) (r2 : Rng),
      amountRetryLoop cfg accounts counts fuel best bestDist r = Except.ok (res, r2) →
      (∀ m, best = some m → P m) →
      ∀ m, res = some m → P m := by
  intro fuel
  induction fuel with
  | zero =>
      intro best bestDist r res r2 h hbest
      unfold amountRetryLoop at h
      rw [genPure_ok_iff] at h
      injection h with h1 h2
      subst h1
      exact hbest
  | succ fuel ih =>
      intro best bestDist r res r2 h hbest
      unfold amountRetryLoop at h
      rw [bind_eq_gBind, gBind_ok_iff] at h
      obtain ⟨m1, r1, hatt, h⟩ := h
      have hPm1 := hattempt _ _ _ hatt
      by_cases hrange : cfg.TOTAL_PIPELINE_MIN ≤ mTotal m1 ∧
          mTotal m1 ≤ cfg.TOTAL_PIPELINE_MAX
      · rw [if_pos hrange] at h
        rw [genPure_ok_iff] at h
        injection h with h1 h2
        subst h1
        intro m hm
        injection hm with hm
        subst hm
        exact hPm1
      · rw [if_neg hrange] at h
        refine ih _ _ _ _ _ h ?_
        intro m hm
        by_cases hbd : betterDist |mTotal m1 - cfg.TOTAL_PIPELINE_TARGET| bestDist
        · rw [if_pos hbd] at hm
          injection hm with hm
          subst hm
          exact hPm1
        · rw [if_neg hbd] at hm
          exact hbest m hm

theorem amountsStage_ok {cfg : Settings} {accounts : List Account}
    {counts : List ℤ} {r : Rng} {m : List (ℤ × List ℤ)} {r2 : Rng}
    (h : amountsStage cfg accounts counts r = Except.ok (m, r2)) :
    (cfg.TOTAL_PIPELINE_MIN ≤ mTotal m ∧ mTotal m ≤ cfg.TOTAL_PIPELINE_MAX) ∧
      ((accounts.map (fun a => a.id)).Nodup →
        (∀ a ∈ accounts, 0 ≤ cfg.TAM_PER_DEVELOPER * a.numDevelopers) →
        m.map Prod.fst = accounts.map (fun a => a.id) ∧
          ∀ a ∈ accounts,
            (dictGet m a.id).sum ≤ cfg.TAM_PER_DEVELOPER * a.numDevelopers) := by
  unfold amountsStage at h
  rw [bind_eq_gBind, gBind_ok_iff] at h
  obtain ⟨best, r1, hloop, h⟩ := h
  cases best with
  | none => simp at h
  | some m0 =>
      have hh : (if cfg.TOTAL_PIPELINE_MIN ≤ mTotal m0 ∧
            mTotal m0 ≤ cfg.TOTAL_PIPELINE_MAX then (pure m0 : GenM (List (ℤ × List ℤ)))
          else gThrow (pipelineFailMsg cfg (mTotal m0))) r1 = Except.ok (m, r2) := h
      by_cases hrange : cfg.TOTAL_PIPELINE_MIN ≤ mTotal m0 ∧
          mTotal m0 ≤ cfg.TOTAL_PIPELINE_MAX
      · rw [if_pos hrange] at hh
        rw [genPure_ok_iff] at hh
        injection hh with h1 h2
        subst h1
        constructor
        · exact hrange
        · intro hnodup htam
          have := amountRetryLoop_prop
            (P := fun mm => mm.map Prod.fst = accounts.map (fun a => a.id) ∧
              ∀ a ∈ accounts,
                (dictGet mm a.id).sum ≤ cfg.TAM_PER_DEVELOPER * a.numDevelopers)
            (fun r mm r2 hat => amountAttempt_spec hnodup htam hat)
            _ _ _ _ _ _ hloop (by intro mm hmm; cases hmm)
          exact this m rfl
      · rw [if_neg hrange] at hh
        simp at hh

/-! ### Helper combinators for `Forall₂` -/

theorem forall₂_comp {α β γ : Type} {R : α → β → Prop} {S : β → γ → Prop}
    {T : α → γ → Prop} (hc : ∀ a b c, R a b → S b c → T a c) :
    ∀ {l1 : List α} {l2 : List β} {l3 : List γ},
      List.Forall₂ R l1 l2 → List.Forall₂ S l2 l3 → List.Forall₂ T l1 l3 := by
  intro l1
  induction l1 with
  | nil =>
      intro l2 l3 h1 h2
      cases h1
      cases h2
      exact List.Forall₂.nil
  | cons a as ih =>
      intro l2 l3 h1 h2
      cases h1 with
      | cons hab h1tl =>
          cases h2 with
          | cons hbc h2tl =>
              exact List.Forall₂.cons (hc _ _ _ hab hbc) (ih h1tl h2tl)

theorem forall₂_map_eq {α β γ : Type} {R : α → β → Prop} {f : α → γ} {g : β → γ}
    (hfg : ∀ a b, R a b → f a = g b) :
    ∀ {l1 : List α} {l2 : List β}, List.Forall₂ R l1 l2 → l1.map f = l2.map g := by
  intro l1
  induction l1 with
  | nil => intro l2 h; cases h; rfl
  | cons a as ih =>
      intro l2 h
      cases h with
      | cons hab htl =>
          rw [List.map_cons, List.map_cons, hfg _ _ hab, ih htl]

theorem forall₂_mem_right {α β : Type} {R : α → β → Prop} :
    ∀ {l1 : List α} {l2 : List β}, List.Forall₂ R l1 l2 →
      ∀ b ∈ l2, ∃ a ∈ l1, R a b := by
  intro l1
  induction l1 with
  | nil => intro l2 h b hb; cases h; cases hb
  | cons a as ih =>
      intro l2 h b hb
      cases h with
      | cons hab htl =>
          rcases List.mem_cons.mp hb with hb1 | hb2
          · exact ⟨a, List.mem_cons_self a as, hb1 ▸ hab⟩
          · obtain ⟨a2, ha2, hr⟩ := ih htl b hb2
            exact ⟨a2, List.mem_cons_of_mem a ha2, hr⟩

/-! ### The account stage -/

theorem num_developers_ok {cfg : Settings} {rev : ℤ} {r : Rng} {d : ℤ} {r2 : Rng}
    (h : _num_developers cfg rev r = Except.ok (d, r2)) : 1 ≤ d := by
  unfold _num_developers at h
  rw [bind_eq_gBind, gBind_ok_iff] at h
  obtain ⟨rpe, r1, hrpe, h⟩ := h
  by_cases hz : rpe.num = 0
  · rw [if_pos hz] at h
    simp at h
  · rw [if_neg hz] at h
    rw [bind_eq_gBind, gBind_ok_iff] at h
    obtain ⟨pct, rmid, hpct, h⟩ := h
    rw [genPure_ok_iff] at h
    injection h with h1 h2
    subst h1
    exact le_max_left 1 _

theorem mkAccount_ok {cfg : Settings} {v : GenInputs} {aid : ℤ} {r : Rng}
    {a : Account} {r2 : Rng} (h : mkAccount cfg v aid r = Except.ok (a, r2)) :
    a.id = aid ∧ 1 ≤ a.numDevelopers := by
  unfold mkAccount at h
  rw [bind_eq_gBind, gBind_ok_iff] at h
  obtain ⟨ind, r1, hind, h⟩ := h
  rw [bind_eq_gBind, gBind_ok_iff] at h
  obtain ⟨rev, rA, hrev, h⟩ := h
  rw [bind_eq_gBind, gBind_ok_iff] at h
  obtain ⟨devs, rB, hdevs, h⟩ := h
  rw [bind_eq_gBind, gBind_ok_iff] at h
  obtain ⟨u, rC, hu, h⟩ := h
  rw [bind_eq_gBind, gBind_ok_iff] at h
  obtain ⟨nm, rD, hnm, h⟩ := h
  rw [genPure_ok_iff] at h
  injection h with h1 h2
  subst h1
  exact ⟨rfl, num_developers_ok hdevs⟩

theorem accountsStage_ok {cfg : Settings} {v : GenInputs} {r : Rng}
    {accounts : List Account} {r2 : Rng}
    (h : accountsStage cfg v r = Except.ok (accounts, r2)) :
    accounts.map (fun a => a.id) =
        (List.range cfg.NUM_ACCOUNTS).map (fun i : ℕ => ((i : ℤ) + 1)) ∧
      ∀ a ∈ accounts, 1 ≤ a.numDevelopers := by
  unfold accountsStage at h
  have hf := gMapM_ok h
  have hf2 : List.Forall₂ (fun (i : ℕ) (a : Account) => a.id = (i : ℤ) + 1 ∧
      1 ≤ a.numDevelopers) (List.range cfg.NUM_ACCOUNTS) accounts := by
    refine hf.imp ?_
    intro i a hia
    obtain ⟨s, s2, hs⟩ := hia
    exact mkAccount_ok hs
  constructor
  · exact (forall₂_map_eq (fun i a hia => hia.1.symm) hf2).symm
  · intro a ha
    obtain ⟨i, hi, hr⟩ := forall₂_mem_right hf2 a ha
    exact hr.2

theorem accountsStage_nodup {cfg : Settings} {v : GenInputs} {r : Rng}
    {accounts : List Account} {r2 : Rng}
    (h : accountsStage cfg v r = Except.ok (accounts, r2)) :
    (accounts.map (fun a => a.id)).Nodup := by
  rw [(accountsStage_ok h).1]
  refine List.Nodup.map ?_ (List.nodup_range _)
  intro i j hij
  simp only at hij
  omega

/-! ### Field preservation through the later account passes -/

theorem assignOwners_ok {reps : List Rep} :
    ∀ {accounts : List Account} {r : Rng} {res : List Account} {r2 : Rng},
      assignOwners reps accounts r = Except.ok (res, r2) →
      List.Forall₂ (fun a a2 => a2 = { a with repId := a2.repId }) accounts res := by
  intro accounts
  induction accounts with
  | nil =>
      intro r res r2 h
      unfold assignOwners at h
      rw [genPure_ok_iff] at h
      injection h with h1 h2
      subst h1
      exact List.Forall₂.nil
  | cons a as ih =>
      intro r res r2 h
      unfold assignOwners at h
      by_cases hemp : (reps.filter (fun rp => rp.territoryId = a.territoryId)).isEmpty
      · rw [if_pos hemp] at h
        simp at h
      · rw [if_neg hemp] at h
        rw [bind_eq_gBind, gBind_ok_iff] at h
        obtain ⟨chosen, r1, hch, h⟩ := h
        rw [bind_eq_gBind, gBind_ok_iff] at h
        obtain ⟨rest2, rmid, hrest, h⟩ := h
        rw [genPure_ok_iff] at h
        injection h with h1 h2
        subst h1
        exact List.Forall₂.cons rfl (ih hrest)

theorem setAccountStates_ok {reps : List Rep} {accounts : List Account} {r : Rng}
    {res : List Account} {r2 : Rng}
    (h : setAccountStates reps accounts r = Except.ok (res, r2)) :
    List.Forall₂ (fun a a2 => a2 = { a with state := a2.state }) accounts res := by
  unfold setAccountStates at h
  have hf := gMapM_ok h
  refine hf.imp ?_
  intro a a2 ha
  obtain ⟨s, s2, hs⟩ := ha
  cases hfind : reps.find? (fun rp => rp.id = a.repId) with
  | none => rw [hfind] at hs; simp at hs
  | some rep =>
      rw [hfind] at hs
      rw [genPure_ok_iff] at hs
      injection hs with h1 h2
      rw [h1]

theorem setInPipeline_forall₂ (opportunities : List Opportunity)
    (accounts : List Account) :
    List.Forall₂ (fun a a2 => a2 = { a with inPipeline := a2.inPipeline })
      accounts (setInPipeline opportunities accounts) := by
  unfold setInPipeline
  induction accounts with
  | nil => exact List.Forall₂.nil
  | cons a as ih => exact List.Forall₂.cons rfl ih

/-- The composed account preservation: from the post-ownership account list
to the final account list, `id` and `numDevelopers` never change. -/
theorem accounts_core_preserved {opportunities : List Opportunity}
    {reps : List Rep} {accounts2 : List Account} {r : Rng}
    {accounts4 : List Account} {r2 : Rng}
    (h : setAccountStates reps (setInPipeline opportunities accounts2) r =
      Except.ok (accounts4, r2)) :
    List.Forall₂ (fun a a2 => a2.id = a.id ∧ a2.numDevelopers = a.numDevelopers)
      accounts2 accounts4 := by
  have h1 := setInPipeline_forall₂ opportunities accounts2
  have h2 := setAccountStates_ok h
  refine forall₂_comp ?_ h1 h2
  intro a b c hab hbc
  rw [hbc, hab]
  exact ⟨rfl, rfl⟩

/-! ### The opportunity-construction stage -/

theorem mkOppsForAccount_ok {cfg : Settings} {v : GenInputs} {acct : Account} :
    ∀ {amounts : List ℤ} {oppId : ℤ} {r : Rng} {res : List Opportunity} {r2 : Rng},
      mkOppsForAccount cfg v acct amounts oppId r = Except.ok (res, r2) →
      res.map (fun o => o.amount) = amounts ∧ ∀ o ∈ res, o.accountId = acct.id := by
  intro amounts
  induction amounts with
  | nil =>
      intro oppId r res r2 h
      unfold mkOppsForAccount at h
      rw [genPure_ok_iff] at h
      injection h with h1 h2
      subst h1
      exact ⟨rfl, by intro o ho; cases ho⟩
  | cons amt rest ih =>
      intro oppId r res r2 h
      unfold mkOppsForAccount at h
      rw [bind_eq_gBind, gBind_ok_iff] at h
      obtain ⟨product, r1, hprod, h⟩ := h
      rw [bind_eq_gBind, gBind_ok_iff] at h
      obtain ⟨stg, rA, hstg, h⟩ := h
      rw [bind_eq_gBind, gBind_ok_iff] at h
      obtain ⟨tail, rB, htail, h⟩ := h
      rw [genPure_ok_iff] at h
      injection h with h1 h2
      subst h1
      obtain ⟨ihmap, ihacc⟩ := ih htail
      constructor
      · rw [List.map_cons, ihmap]
      · intro o ho
        rcases List.mem_cons.mp ho with ho1 | ho2
        · rw [ho1]
        · exact ihacc o ho2

theorem buildOppsLoop_spec {cfg : Settings} {v : GenInputs}
    {best : List (ℤ × List ℤ)} :
    ∀ {pairs : List (Account × ℤ)} {nextId : ℤ} {r : Rng}
      {res : List Opportunity} {r2 : Rng},
      buildOppsLoop cfg v best pairs nextId r = Except.ok (res, r2) →
      (∀ o ∈ res, o.accountId ∈ pairs.map (fun p => p.1.id)) ∧
        ((res.length : ℤ) = (pairs.map (fun p => p.2)).sum) ∧
        ((res.map (fun o => o.amount)).sum =
          (pairs.map (fun p => (dictGet best p.1.id).sum)).sum) ∧
        ((pairs.map (fun p => p.1.id)).Nodup →
          ∀ p ∈ pairs,
            (oppsOf res p.1.id).map (fun o => o.amount) = dictGet best p.1.id) := by
  intro pairs
  induction pairs with
  | nil =>
      intro nextId r res r2 h
      unfold buildOppsLoop at h
      rw [genPure_ok_iff] at h
      injection h with h1 h2
      subst h1
      refine ⟨?_, ?_, ?_, ?_⟩
      · intro o ho
        cases ho
      · simp
      · simp
      · intro _ p hp
        cases hp
  | cons pr rest ih =>
      intro nextId r res r2 h
      obtain ⟨acct, n⟩ := pr
      unfold buildOppsLoop at h
      by_cases hlc : ((dictGet best acct.id).length : ℤ) ≠ n
      · rw [if_pos hlc] at h
        simp at h
      · rw [if_neg hlc] at h
        push_neg at hlc
        rw [bind_eq_gBind, gBind_ok_iff] at h
        obtain ⟨opps_a, r1, hoa, h⟩ := h
        rw [bind_eq_gBind, gBind_ok_iff] at h
        obtain ⟨tail, rA, htail, h⟩ := h
        rw [genPure_ok_iff] at h
        injection h with h1 h2
        subst h1
        obtain ⟨hamap, haacc⟩ := mkOppsForAccount_ok hoa
        obtain ⟨ihmem, ihlen, ihsum, ihfil⟩ := ih htail
        have hlenA : opps_a.length = (dictGet best acct.id).length := by
          rw [← hamap, List.length_map]
        refine ⟨?_, ?_, ?_, ?_⟩
        · intro o ho
          rcases List.mem_append.mp ho with ho1 | ho2
          · rw [List.map_cons, haacc o ho1]
            exact List.mem_cons_self _ _
          · rw [List.map_cons]
            exact List.mem_cons_of_mem _ (ihmem o ho2)
        · rw [List.length_append, List.map_cons, List.sum_cons]
          push_cast
          rw [← ihlen]
          rw [hlenA]
          omega
        · rw [List.map_append, List.sum_append, hamap, List.map_cons, List.sum_cons, ihsum]
        · intro hnodup p hp
          rw [List.map_cons] at hnodup
          have hnd := List.nodup_cons.mp hnodup
          rcases List.mem_cons.mp hp with hp1 | hp2
          · subst hp1
            unfold oppsOf
            rw [List.filter_append]
            have hfA : opps_a.filter (fun o => decide (o.accountId = acct.id)) = opps_a := by
              rw [List.filter_eq_self]
              intro o ho
              simp [haacc o ho]
            have hfT : tail.filter (fun o => decide (o.accountId = acct.id)) = [] := by
              rw [List.filter_eq_nil]
              intro o ho
              have := ihmem o ho
              simp only [decide_eq_true_eq]
              intro he
              exact hnd.1 (he ▸ this)
            rw [hfA, hfT, List.append_nil]
            exact hamap
          · unfold oppsOf
            rw [List.filter_append]
            have hne : acct.id ≠ p.1.id := by
              intro he
              exact hnd.1 (he ▸ List.mem_map_of_mem (fun q => q.1.id) hp2)
            have hfA : opps_a.filter (fun o => decide (o.accountId = p.1.id)) = [] := by
              rw [List.filter_eq_nil]
              intro o ho
              simp only [decide_eq_true_eq]
              rw [haacc o ho]
              exact hne
            rw [hfA, List.nil_append]
            exact ihfil hnd.2 p hp2

theorem sum_dictGet_eq_mTotal {m : List (ℤ × List ℤ)} {accounts : List Account}
    (hkeys : m.map Prod.fst = accounts.map (fun a => a.id))
    (hnodup : (accounts.map (fun a => a.id)).Nodup) :
    (accounts.map (fun a => (dictGet m a.id).sum)).sum = mTotal m := by
  induction accounts generalizing m with
  | nil =>
      cases m with
      | nil => simp [mTotal]
      | cons q ms => simp at hkeys
  | cons b bs ih =>
      cases m with
      | nil => simp at hkeys
      | cons q ms =>
          obtain ⟨k, v⟩ := q
          rw [List.map_cons, List.map_cons] at hkeys
          injection hkeys with hk hkeys2
          have hk2 : k = b.id := hk
          rw [List.map_cons] at hnodup
          have hnd := List.nodup_cons.mp hnodup
          rw [List.map_cons, List.sum_cons]
          have hhead : dictGet ((k, v) :: ms) b.id = v := by
            rw [dictGet_cons, if_pos hk2]
          have htail : bs.map (fun a => (dictGet ((k, v) :: ms) a.id).sum) =
              bs.map (fun a => (dictGet ms a.id).sum) := by
            apply List.map_congr_left
            intro a ha
            have hne : k ≠ a.id := by
              rw [hk2]
              intro he
              exact hnd.1 (he ▸ List.mem_map_of_mem (fun x => x.id) ha)
            rw [dictGet_cons, if_neg hne]
          rw [hhead, htail, ih hkeys2 hnd.2]
          unfold mTotal
          rw [List.map_cons, List.sum_cons]

theorem buildOpportunities_spec {cfg : Settings} {v : GenInputs}
    {best : List (ℤ × List ℤ)} {accounts : List Account} {counts : List ℤ}
    {r : Rng} {res : List Opportunity} {r2 : Rng}
    (h : buildOpportunities cfg v best accounts counts r = Except.ok (res, r2)) :
    ((res.length : ℤ) = counts.sum) ∧
      ((res.map (fun o => o.amount)).sum =
        (accounts.map (fun a => (dictGet best a.id).sum)).sum) ∧
      ((accounts.map (fun a => a.id)).Nodup →
        ∀ a ∈ accounts,
          (oppsOf res a.id).map (fun o => o.amount) = dictGet best a.id) := by
  unfold buildOpportunities at h
  by_cases hlen : accounts.length = counts.length
  · rw [if_pos hlen] at h
    obtain ⟨hm, hlen2, hsum, hfil⟩ := buildOppsLoop_spec h
    have hfst : (accounts.zip counts).map (fun p => p.1.id) =
        accounts.map (fun a => a.id) := by
      rw [show (fun p : Account × ℤ => p.1.id) = (fun a : Account => a.id) ∘ Prod.fst from rfl]
      rw [← List.map_map]
      rw [List.map_fst_zip accounts counts (le_of_eq hlen)]
    have hsnd : (accounts.zip counts).map (fun p => p.2) = counts := by
      rw [show (fun p : Account × ℤ => p.2) = Prod.snd from rfl]
      exact List.map_snd_zip accounts counts (ge_of_eq hlen)
    have hdg : (accounts.zip counts).map (fun p => (dictGet best p.1.id).sum) =
        accounts.map (fun a => (dictGet best a.id).sum) := by
      rw [show (fun p : Account × ℤ => (dictGet best p.1.id).sum) =
        (fun a : Account => (dictGet best a.id).sum) ∘ Prod.fst from rfl]
      rw [← List.map_map]
      rw [List.map_fst_zip accounts counts (le_of_eq hlen)]
    refine ⟨by rw [hlen2, hsnd], by rw [hsum, hdg], ?_⟩
    intro hnodup a ha
    rw [← hfst] at hnodup
    obtain ⟨i, hi, hie⟩ := List.mem_iff_getElem.mp ha
    have hzi : i < (accounts.zip counts).length := by
      rw [List.length_zip]
      omega
    have hpmem : (accounts.zip counts)[i] ∈ accounts.zip counts := List.getElem_mem hzi
    have hp1 : ((accounts.zip counts)[i]).1 = a := by
      rw [List.getElem_zip]
      exact hie
    have := hfil hnodup _ hpmem
    rw [hp1] at this
    exact this
  · rw [if_neg hlen] at h
    simp at h

/-! ### The sampling and close-date stage -/

theorem not_mem_eraseIdx_self {α : Type} [DecidableEq α] {pool : List α}
    (hnd : pool.Nodup) {i : ℕ} (hi : i < pool.length) :
    pool[i] ∉ pool.eraseIdx i := by
  intro hmem
  obtain ⟨j, hj, hje⟩ := List.mem_iff_getElem.mp hmem
  have hjlen : j < pool.length - 1 := by
    have := List.length_eraseIdx pool i
    rw [if_pos hi] at this
    omega
  rw [List.getElem_eraseIdx] at hje
  by_cases hji : j < i
  · rw [dif_pos hji] at hje
    have := hnd.getElem_inj_iff.mp hje
    omega
  · rw [dif_neg hji] at hje
    have := hnd.getElem_inj_iff.mp hje
    omega

theorem sampleAux_ok {α : Type} [DecidableEq α] :
    ∀ {k : ℕ} {pool : List α} {r : Rng} {res : List α} {r2 : Rng},
      sampleAux k pool r = Except.ok (res, r2) →
      res.length = k ∧ (∀ x ∈ res, x ∈ pool) ∧ (pool.Nodup → res.Nodup) := by
  intro k
  induction k with
  | zero =>
      intro pool r res r2 h
      unfold sampleAux at h
      rw [genPure_ok_iff] at h
      injection h with h1 h2
      subst h1
      refine ⟨rfl, ?_, ?_⟩
      · intro x hx
        cases hx
      · intro _
        exact List.nodup_nil
  | succ k ih =>
      intro pool r res r2 h
      unfold sampleAux at h
      by_cases hpos : 0 < pool.length
      · rw [dif_pos hpos] at h
        have hmm : (match sampleAux k (pool.eraseIdx (r.ints r.pos % pool.length)) r.next with
            | Except.error e => (Except.error e : Except String (List α × Rng))
            | Except.ok (rest, rB) =>
                Except.ok (pool.get ⟨r.ints r.pos % pool.length, Nat.mod_lt _ hpos⟩ :: rest, rB)) =
            Except.ok (res, r2) := h
        split at hmm
        next e heq => cases hmm
        next rest rB heq =>
            injection hmm with hmm
            injection hmm with h1 h2
            subst h1
            obtain ⟨ihlen, ihsub, ihnd⟩ := ih heq
            have hidx : r.ints r.pos % pool.length < pool.length := Nat.mod_lt _ hpos
            refine ⟨by rw [List.length_cons, ihlen], ?_, ?_⟩
            · intro x hx
              rcases List.mem_cons.mp hx with hx1 | hx2
              · rw [hx1]
                exact List.get_mem pool _ _
              · exact (List.eraseIdx_sublist pool _).subset (ihsub x hx2)
            · intro hnd
              rw [List.nodup_cons]
              refine ⟨?_, ihnd ((List.eraseIdx_sublist pool _).nodup hnd)⟩
              intro hmem
              exact not_mem_eraseIdx_self hnd hidx (ihsub _ hmem)
      · rw [dif_neg hpos] at h
        cases h

theorem sampleM_ok {α : Type} [DecidableEq α] {pop : List α} {k : ℕ} {r : Rng}
    {res : List α} {r2 : Rng} (h : sampleM pop k r = Except.ok (res, r2)) :
    res.length = k ∧ (∀ x ∈ res, x ∈ pop) ∧ (pop.Nodup → res.Nodup) := by
  unfold sampleM at h
  by_cases hk : k ≤ pop.length
  · rw [if_pos hk] at h
    exact sampleAux_ok h
  · rw [if_neg hk] at h
    simp at h

theorem assignDatesLoop_spec {cfg : Settings} {recentIdx : List ℕ} :
    ∀ {opps : List Opportunity} {idx : ℕ} {r : Rng} {res : List Opportunity}
      {r2 : Rng},
      assignDatesLoop cfg recentIdx opps idx r = Except.ok (res, r2) →
      res.length = opps.length ∧
        ∀ (i : ℕ) (hi : i < opps.length) (hr : i < res.length),
          ∃ d, res[i] = { opps[i] with closeDate := some d } ∧
            ((idx + i) ∈ recentIdx ∧ dateInWindow cfg.RECENT_CLOSE_WINDOW d ∨
              (idx + i) ∉ recentIdx ∧ dateInWindow cfg.FUTURE_CLOSE_WINDOW d) := by
  intro opps
  induction opps with
  | nil =>
      intro idx r res r2 h
      unfold assignDatesLoop at h
      rw [genPure_ok_iff] at h
      injection h with h1 h2
      subst h1
      refine ⟨rfl, ?_⟩
      intro i hi
      simp at hi
  | cons o os ih =>
      intro idx r res r2 h
      unfold assignDatesLoop at h
      rw [bind_eq_gBind, gBind_ok_iff] at h
      obtain ⟨d, r1, hd, h⟩ := h
      rw [bind_eq_gBind, gBind_ok_iff] at h
      obtain ⟨tail, rA, htail, h⟩ := h
      rw [genPure_ok_iff] at h
      injection h with h1 h2
      subst h1
      obtain ⟨ihlen, ihpt⟩ := ih htail
      have hdwin : (idx ∈ recentIdx ∧ dateInWindow cfg.RECENT_CLOSE_WINDOW d ∨
          idx ∉ recentIdx ∧ dateInWindow cfg.FUTURE_CLOSE_WINDOW d) := by
        unfold dateForIdx at hd
        by_cases hmem : idx ∈ recentIdx
        · rw [if_pos hmem] at hd
          exact Or.inl ⟨hmem, dateBetweenM_ok hd⟩
        · rw [if_neg hmem] at hd
          exact Or.inr ⟨hmem, dateBetweenM_ok hd⟩
      constructor
      · rw [List.length_cons, List.length_cons, ihlen]
      · intro i hi hr
        cases i with
        | zero =>
            refine ⟨d, rfl, ?_⟩
            rw [Nat.add_zero]
            exact hdwin
        | succ n =>
            have hn : n < os.length := by simpa using hi
            have hrn : n < tail.length := by simpa using hr
            obtain ⟨d2, hde, hdw⟩ := ihpt n hn hrn
            refine ⟨d2, by simpa using hde, ?_⟩
            have harith : idx + 1 + n = idx + (n + 1) := by omega
            rw [← harith]
            exact hdw

theorem assignDatesLoop_count {cfg : Settings} {recentIdx : List ℕ}
    (hdisj : cfg.RECENT_CLOSE_WINDOW.stop < cfg.FUTURE_CLOSE_WINDOW.start) :
    ∀ {opps : List Opportunity} {idx : ℕ} {r : Rng} {res : List Opportunity}
      {r2 : Rng},
      assignDatesLoop cfg recentIdx opps idx r = Except.ok (res, r2) →
      (res.filter
          (fun o => decide (closeDateInWindow cfg.RECENT_CLOSE_WINDOW o.closeDate))).length =
        (List.range opps.length).countP (fun i => decide ((idx + i) ∈ recentIdx)) := by
  intro opps
  induction opps with
  | nil =>
      intro idx r res r2 h
      unfold assignDatesLoop at h
      rw [genPure_ok_iff] at h
      injection h with h1 h2
      subst h1
      simp
  | cons o os ih =>
      intro idx r res r2 h
      unfold assignDatesLoop at h
      rw [bind_eq_gBind, gBind_ok_iff] at h
      obtain ⟨d, r1, hd, h⟩ := h
      rw [bind_eq_gBind, gBind_ok_iff] at h
      obtain ⟨tail, rA, htail, h⟩ := h
      rw [genPure_ok_iff] at h
      injection h with h1 h2
      subst h1
      have hcount := ih htail
      rw [List.length_cons, List.range_succ_eq_map, List.countP_cons, List.countP_map]
      have hshift : (List.range os.length).countP
          ((fun i => decide ((idx + i) ∈ recentIdx)) ∘ Nat.succ) =
          (List.range os.length).countP (fun i => decide ((idx + 1 + i) ∈ recentIdx)) := by
        apply List.countP_congr
        intro i hi
        have harith : idx + Nat.succ i = idx + 1 + i := by omega
        simp only [Function.comp]
        rw [harith]
        
      rw [List.filter_cons]
      unfold dateForIdx at hd
      by_cases hmem : idx ∈ recentIdx
      · rw [if_pos hmem] at hd
        have hdw := dateBetweenM_ok hd
        have hp : decide (closeDateInWindow cfg.RECENT_CLOSE_WINDOW
            (Opportunity.closeDate { o with closeDate := some d })) = true := by
          rw [decide_eq_true_eq]
          exact hdw
        rw [if_pos hp, List.length_cons, hcount, hshift]
        have hf0 : decide ((idx + 0) ∈ recentIdx) = true := by
          rw [Nat.add_zero]
          exact decide_eq_true hmem
        rw [hf0, if_pos rfl]
      · rw [if_neg hmem] at hd
        have hdw := dateBetweenM_ok hd
        have hp : decide (closeDateInWindow cfg.RECENT_CLOSE_WINDOW
            (Opportunity.closeDate { o with closeDate := some d })) = false := by
          rw [decide_eq_false_iff_not]
          show ¬ dateInWindow cfg.RECENT_CLOSE_WINDOW d
          unfold dateInWindow
          intro hcontra
          have := hdw.1
          omega
        rw [if_neg (by rw [hp]; exact Bool.false_ne_true), hcount, hshift]
        have hf0 : decide ((idx + 0) ∈ recentIdx) = false := by
          rw [Nat.add_zero]
          exact decide_eq_false hmem
        rw [hf0, if_neg Bool.false_ne_true]
        omega

theorem countP_range_mem {S : List ℕ} {n : ℕ} (hS : ∀ x ∈ S, x < n)
    (hnd : S.Nodup) :
    (List.range n).countP (fun i => decide (i ∈ S)) = S.length := by
  rw [List.countP_eq_length_filter]
  have hnd2 : ((List.range n).filter (fun i => decide (i ∈ S))).Nodup :=
    (List.filter_sublist _).nodup (List.nodup_range n)
  have hperm : ((List.range n).filter (fun i => decide (i ∈ S))).Perm S := by
    rw [List.perm_ext_iff_of_nodup hnd2 hnd]
    intro a
    rw [List.mem_filter]
    constructor
    · intro ha
      exact of_decide_eq_true ha.2
    · intro ha
      exact ⟨List.mem_range.mpr (hS a ha), decide_eq_true ha⟩
  exact hperm.length_eq

theorem assignCloseDates_inv {cfg : Settings} {opps : List Opportunity} {r : Rng}
    {res : List Opportunity} {r2 : Rng}
    (h : assignCloseDates cfg opps r = Except.ok (res, r2)) :
    ∃ S r1,
      ¬ pyRound ((Q.ofInt (cfg.NUM_OPPORTUNITIES : ℤ)).mul cfg.RECENT_CLOSE_PCT) < 0 ∧
        sampleM (List.range opps.length)
            (pyRound ((Q.ofInt (cfg.NUM_OPPORTUNITIES : ℤ)).mul cfg.RECENT_CLOSE_PCT)).toNat
            r = Except.ok (S, r1) ∧
        assignDatesLoop cfg S opps 0 r1 = Except.ok (res, r2) := by
  unfold assignCloseDates at h
  by_cases hneg : pyRound ((Q.ofInt (cfg.NUM_OPPORTUNITIES : ℤ)).mul cfg.RECENT_CLOSE_PCT) < 0
  · rw [if_pos hneg] at h
    simp at h
  · rw [if_neg hneg] at h
    rw [bind_eq_gBind, gBind_ok_iff] at h
    obtain ⟨S, r1, hS, hloop⟩ := h
    exact ⟨S, r1, hneg, hS, hloop⟩

/-! ### Inversion of the full generator body -/

theorem generateCore_inv {cfg : Settings} {v : GenInputs} {r : Rng} {out : GenOut}
    {rend : Rng} (h : generateCore cfg v r = Except.ok (out, rend)) :
    ∃ accounts0 r1 shuffled rs reps0 ra accounts2 rb counts0 rc counts rd best re
      opps0 rf opps rg tmap rh reps1 ri accounts4 rj,
      accountsStage cfg v r = Except.ok (accounts0, r1) ∧
      shuffleM ((territoriesOf accounts0).map (fun t => t.id)) r1 = Except.ok (shuffled, rs) ∧
      repsStage cfg v shuffled rs = Except.ok (reps0, ra) ∧
      assignOwners reps0 (accounts0.map (fun a =>
        { a with territoryId := industryTerritoryId accounts0 a.industry })) ra =
        Except.ok (accounts2, rb) ∧
      gMapM (fun _ => randintM cfg.OPPS_PER_ACCOUNT_MIN cfg.OPPS_PER_ACCOUNT_MAX) accounts2 rb =
        Except.ok (counts0, rc) ∧
      _reconcile_opp_counts cfg counts0 (cfg.NUM_OPPORTUNITIES : ℤ) rc = Except.ok (counts, rd) ∧
      amountsStage cfg accounts2 counts rd = Except.ok (best, re) ∧
      buildOpportunities cfg v best accounts2 counts re = Except.ok (opps0, rf) ∧
      assignCloseDates cfg opps0 rf = Except.ok (opps, rg) ∧
      territoryRegions (regionsOf v) (territoriesOf accounts0) rg = Except.ok (tmap, rh) ∧
      assignRepRegions v tmap reps0 rh = Except.ok (reps1, ri) ∧
      setAccountStates reps1 (setInPipeline opps0 accounts2) ri = Except.ok (accounts4, rj) ∧
      out = { reps := quotaStage cfg opps accounts4 reps1, accounts := accounts4,
              opportunities := opps, territories := territoriesOf accounts0 } := by
  unfold generateCore at h
  by_cases hreg : (regionsOf v).isEmpty
  · simp only [hreg, if_true, gThrow_ok_iff] at h
  · simp only [hreg, if_false, Bool.false_eq_true, bind_eq_gBind, gBind_ok_iff,
      genPure_ok_iff] at h
    obtain ⟨accounts0, r1, h1, shuffled, rs, h2, reps0, ra, h3, accounts2, rb, h4,
      counts0, rc, h5, counts, rd, h6, best, re, h7, opps0, rf, h8, opps, rg, h9,
      tmap, rh, h10, reps1, ri, h11, accounts4, rj, h12, hfin⟩ := h
    injection hfin with ho hr
    exact ⟨accounts0, r1, shuffled, rs, reps0, ra, accounts2, rb, counts0, rc,
      counts, rd, best, re, opps0, rf, opps, rg, tmap, rh, reps1, ri, accounts4,
      rj, h1, h2, h3, h4, h5, h6, h7, h8, h9, h10, h11, h12, ho⟩

theorem generate_run_inv {cfg : Settings} {v : GenInputs} {rng : Rng} {out : GenOut}
    (h : (match generateCore cfg v rng with
        | Except.error e => (Except.error e : Except String GenOut)
        | Except.ok (o, _) => Except.ok o) = Except.ok out) :
    ∃ rend, generateCore cfg v rng = Except.ok (out, rend) := by
  cases hcore : generateCore cfg v rng with
  | error e =>
      rw [hcore] at h
      cases h
  | ok p =>
      obtain ⟨o, rend⟩ := p
      rw [hcore] at h
      injection h with h
      subst h
      exact ⟨rend, rfl⟩

theorem generate_inv {cfg : Settings} {fromSeed : ℤ → Rng} {seed : Option ℤ}
    {v : GenInputs} {out : GenOut}
    (h : generate cfg fromSeed seed v = Except.ok out) :
    ∃ rng rend, generateCore cfg v rng = Except.ok (out, rend) := by
  cases seed with
  | none =>
      obtain ⟨rend, hcore⟩ := @generate_run_inv cfg v (fromSeed cfg.DEFAULT_SEED) out h
      exact ⟨_, rend, hcore⟩
  | some s =>
      obtain ⟨rend, hcore⟩ := @generate_run_inv cfg v (fromSeed s) out h
      exact ⟨_, rend, hcore⟩

/-! ## Claim theorems -/

/-- C1: the `return` statement of `generate` carries exactly four
collections (reps, accounts, opportunities, territories); no fifth
`opportunityHistory` collection is produced.  The spec's five-collection
claim does not match the code. -/
theorem c1_generate_returns_four_collections :
    generateReturnFields = ["reps", "accounts", "opportunities", "territories"] ∧
      generateReturnFields.length = 4 ∧
      "opportunityHistory" ∉ generateReturnFields := by
  refine ⟨rfl, rfl, ?_⟩
  decide

/-- C4: whenever `_reconcile_opp_counts` returns normally on counts that
all lie within `[OPPS_PER_ACCOUNT_MIN, OPPS_PER_ACCOUNT_MAX]`, the result
sums exactly to the target and every entry still lies within the band. -/
theorem c4_reconcile_sum_and_band {cfg : Settings} {counts : List ℤ}
    {target : ℤ} {r : Rng} {res : List ℤ} {r2 : Rng}
    (hband : ∀ c ∈ counts, cfg.OPPS_PER_ACCOUNT_MIN ≤ c ∧ c ≤ cfg.OPPS_PER_ACCOUNT_MAX)
    (h : _reconcile_opp_counts cfg counts target r = Except.ok (res, r2)) :
    res.sum = target ∧
      ∀ c ∈ res, cfg.OPPS_PER_ACCOUNT_MIN ≤ c ∧ c ≤ cfg.OPPS_PER_ACCOUNT_MAX := by
  have hok := reconcile_opp_counts_ok h
  exact ⟨hok.1, hok.2 hband⟩

theorem c4_witness :
    _reconcile_opp_counts cfgW [1, 1] 3 rngW =
        Except.ok ([2, 1], { rngW with pos := 1 }) ∧
      ([2, 1] : List ℤ).sum = 3 ∧
      ∀ c ∈ ([2, 1] : List ℤ),
        cfgW.OPPS_PER_ACCOUNT_MIN ≤ c ∧ c ≤ cfgW.OPPS_PER_ACCOUNT_MAX := by
  have hrun : _reconcile_opp_counts cfgW [1, 1] 3 rngW =
      Except.ok ([2, 1], { rngW with pos := 1 }) := by rfl
  have h := c4_reconcile_sum_and_band (by decide) hrun
  exact ⟨hrun, h.1, h.2⟩

/-- C6: `generate` is a deterministic function of its inputs: two calls
with the same seed and the same vocabulary/config inputs that both return
normally yield equal rep, account, opportunity and territory collections. -/
theorem c6_determinism {cfg : Settings} {fromSeed : ℤ → Rng} {seed : Option ℤ}
    {v : GenInputs} {out1 out2 : GenOut}
    (h1 : generate cfg fromSeed seed v = Except.ok out1)
    (h2 : generate cfg fromSeed seed v = Except.ok out2) :
    out1.reps = out2.reps ∧ out1.accounts = out2.accounts ∧
      out1.opportunities = out2.opportunities ∧ out1.territories = out2.territories := by
  have h := h1.symm.trans h2
  injection h with h
  subst h
  exact ⟨rfl, rfl, rfl, rfl⟩

theorem c6_witness :
    resW.reps = resW.reps ∧ resW.accounts = resW.accounts ∧
      resW.opportunities = resW.opportunities ∧ resW.territories = resW.territories :=
  @c6_determinism cfgW fsW (some 0) inputsW resW resW (by rfl) (by rfl)

/-- C8: with `OPPS_PER_ACCOUNT_MIN = OPPS_PER_ACCOUNT_MAX = 0` (so every
initial count is 0) and a positive target, `_reconcile_opp_counts` raises
the infeasibility error instead of returning counts that miss the target. -/
theorem c8_reconcile_infeasible {cfg : Settings} {counts : List ℤ}
    {target : ℤ} {r : Rng}
    (hmin : cfg.OPPS_PER_ACCOUNT_MIN = 0) (hmax : cfg.OPPS_PER_ACCOUNT_MAX = 0)
    (htarget : 0 < target) (hzero : ∀ c ∈ counts, c = 0) :
    _reconcile_opp_counts cfg counts target r =
      Except.error "Cannot add opportunities: no eligible accounts < max" :=
  reconcile_infeasible_zero hmax htarget hzero

theorem c8_witness :
    _reconcile_opp_counts cfgZ [0, 0] 5 rngW =
      Except.error "Cannot add opportunities: no eligible accounts < max" :=
  c8_reconcile_infeasible rfl rfl (by decide) (by decide)

/-- C10: `_enforce_tam_int` leaves any list whose sum is at most the cap
unchanged, and for a non-negative cap it is idempotent. -/
theorem c10_enforce_unchanged_and_idempotent (amounts : List ℤ) (tam : ℤ)
    (htam : 0 ≤ tam) :
    (amounts.sum ≤ tam → _enforce_tam_int amounts tam = amounts) ∧
      _enforce_tam_int (_enforce_tam_int amounts tam) tam =
        _enforce_tam_int amounts tam :=
  ⟨fun h => enforce_tam_unchanged h, enforce_tam_idem amounts htam⟩

theorem c10_witness :
    (_enforce_tam_int [3, 4] 10 = [3, 4]) ∧
      _enforce_tam_int (_enforce_tam_int [3, 4] 10) 10 =
        _enforce_tam_int [3, 4] 10 := by
  have h := c10_enforce_unchanged_and_idempotent [3, 4] 10 (by decide)
  exact ⟨h.1 (by decide), h.2⟩

/-- Close dates in a successful `generate` run: every opportunity carries a
date in one of the two windows, and (for disjoint windows) the number of
recent-window dates is exactly the rounded recent count. -/
theorem generate_dates_spec {cfg : Settings} {fromSeed : ℤ → Rng}
    {seed : Option ℤ} {v : GenInputs} {out : GenOut}
    (h : generate cfg fromSeed seed v = Except.ok out) :
    (∀ o ∈ out.opportunities, ∃ d, o.closeDate = some d ∧
        (dateInWindow cfg.RECENT_CLOSE_WINDOW d ∨
          dateInWindow cfg.FUTURE_CLOSE_WINDOW d)) ∧
      (cfg.RECENT_CLOSE_WINDOW.stop < cfg.FUTURE_CLOSE_WINDOW.start →
        ((out.opportunities.filter (fun o =>
            decide (closeDateInWindow cfg.RECENT_CLOSE_WINDOW o.closeDate))).length : ℤ) =
          pyRound ((Q.ofInt (cfg.NUM_OPPORTUNITIES : ℤ)).mul cfg.RECENT_CLOSE_PCT)) := by
  obtain ⟨rng, rend, hcore⟩ := generate_inv h
  obtain ⟨accounts0, r1, shuffled, rs, reps0, ra, accounts2, rb, counts0, rc,
    counts, rd, best, re, opps0, rf, opps, rg, tmap, rh, reps1, ri, accounts4,
    rj, h1, h2, h3, h4, h5, h6, h7, h8, h9, h10, h11, h12, ho⟩ :=
    generateCore_inv hcore
  obtain ⟨S, rS, hneg, hS, hloop⟩ := assignCloseDates_inv h9
  have hopps : out.opportunities = opps := by rw [ho]
  obtain ⟨hlen, hpt⟩ := assignDatesLoop_spec hloop
  constructor
  · intro o hmem
    rw [hopps] at hmem
    obtain ⟨i, hi, hgi⟩ := List.mem_iff_getElem.mp hmem
    obtain ⟨d, hde, hdw⟩ := hpt i (by omega) hi
    refine ⟨d, ?_, ?_⟩
    · rw [← hgi, hde]
    · rcases hdw with ⟨_, hw⟩ | ⟨_, hw⟩
      · exact Or.inl hw
      · exact Or.inr hw
  · intro hdisj
    have hcount := assignDatesLoop_count hdisj hloop
    obtain ⟨hSlen, hSsub, hSnd⟩ := sampleM_ok hS
    have hcongr : (List.range opps0.length).countP
        (fun i => decide ((0 + i) ∈ S)) =
        (List.range opps0.length).countP (fun i => decide (i ∈ S)) := by
      apply List.countP_congr
      intro i hi
      rw [Nat.zero_add]
    have hmemlt : ∀ x ∈ S, x < opps0.length := by
      intro x hx
      exact List.mem_range.mp (hSsub x hx)
    have hrange := countP_range_mem hmemlt (hSnd (List.nodup_range _))
    rw [hopps, hcount, hcongr, hrange, hSlen]
    have hnn : 0 ≤ pyRound ((Q.ofInt (cfg.NUM_OPPORTUNITIES : ℤ)).mul
        cfg.RECENT_CLOSE_PCT) := by omega
    exact Int.toNat_of_nonneg hnn

/-- C9: every opportunity in a dataset that `generate` returns successfully
has a present (`some`) close date lying in one of the two configured
windows; none is returned with a missing close date. -/
theorem c9_closedate_always_present {cfg : Settings} {fromSeed : ℤ → Rng}
    {seed : Option ℤ} {v : GenInputs} {out : GenOut}
    (h : generate cfg fromSeed seed v = Except.ok out) :
    ∀ o ∈ out.opportunities, ∃ d, o.closeDate = some d ∧
      (dateInWindow cfg.RECENT_CLOSE_WINDOW d ∨
        dateInWindow cfg.FUTURE_CLOSE_WINDOW d) :=
  (generate_dates_spec h).1

theorem c9_witness :
    resW.opportunities.Forall (fun o => ∃ d, o.closeDate = some d ∧
      (dateInWindow cfgW.RECENT_CLOSE_WINDOW d ∨
        dateInWindow cfgW.FUTURE_CLOSE_WINDOW d)) := by
  rw [List.forall_iff_forall_mem]
  exact @c9_closedate_always_present cfgW fsW (some 0) inputsW resW (by rfl)

/-- C5: in a successful `generate` run with disjoint windows, the number of
opportunities whose close date lies in the recent window is exactly
`round(NUM_OPPORTUNITIES * RECENT_CLOSE_PCT)`, and every other
opportunity's close date lies in the future window. -/
theorem c5_exact_close_date_split {cfg : Settings} {fromSeed : ℤ → Rng}
    {seed : Option ℤ} {v : GenInputs} {out : GenOut}
    (hdisj : cfg.RECENT_CLOSE_WINDOW.stop < cfg.FUTURE_CLOSE_WINDOW.start)
    (h : generate cfg fromSeed seed v = Except.ok out) :
    ((out.opportunities.filter (fun o =>
        decide (closeDateInWindow cfg.RECENT_CLOSE_WINDOW o.closeDate))).length : ℤ) =
      pyRound ((Q.ofInt (cfg.NUM_OPPORTUNITIES : ℤ)).mul cfg.RECENT_CLOSE_PCT) ∧
      ∀ o ∈ out.opportunities,
        ¬ closeDateInWindow cfg.RECENT_CLOSE_WINDOW o.closeDate →
          closeDateInWindow cfg.FUTURE_CLOSE_WINDOW o.closeDate := by
  obtain ⟨hpt, hcount⟩ := generate_dates_spec h
  refine ⟨hcount hdisj, ?_⟩
  intro o hmem hnr
  obtain ⟨d, hde, hdw⟩ := hpt o hmem
  rw [hde]
  rw [hde] at hnr
  rcases hdw with hw | hw
  · exact absurd (show closeDateInWindow cfg.RECENT_CLOSE_WINDOW (some d) from hw) hnr
  · exact hw

theorem c5_witness :
    (((resW.opportunities.filter (fun o =>
        decide (closeDateInWindow cfgW.RECENT_CLOSE_WINDOW o.closeDate))).length : ℤ) =
      pyRound ((Q.ofInt (cfgW.NUM_OPPORTUNITIES : ℤ)).mul cfgW.RECENT_CLOSE_PCT)) ∧
      ∀ o ∈ resW.opportunities,
        ¬ closeDateInWindow cfgW.RECENT_CLOSE_WINDOW o.closeDate →
          closeDateInWindow cfgW.FUTURE_CLOSE_WINDOW o.closeDate :=
  @c5_exact_close_date_split cfgW fsW (some 0) inputsW resW (by decide) (by rfl)

/-! ### Amount preservation through the close-date pass -/

theorem assignDatesLoop_preserves {cfg : Settings} {S : List ℕ}
    {opps : List Opportunity} {idx : ℕ} {r : Rng} {res : List Opportunity}
    {r2 : Rng} (h : assignDatesLoop cfg S opps idx r = Except.ok (res, r2)) :
    List.Forall₂ (fun o o2 => o2.amount = o.amount ∧ o2.accountId = o.accountId)
      opps res := by
  obtain ⟨hlen, hpt⟩ := assignDatesLoop_spec h
  rw [List.forall₂_iff_get]
  refine ⟨hlen.symm, ?_⟩
  intro i h1 h2
  obtain ⟨d, hde, hdw⟩ := hpt i h1 h2
  rw [List.get_eq_getElem, List.get_eq_getElem, hde]
  exact ⟨rfl, rfl⟩

theorem oppsOf_map_amount_eq {l1 l2 : List Opportunity} (aid : ℤ)
    (hf : List.Forall₂ (fun o o2 => o2.amount = o.amount ∧ o2.accountId = o.accountId)
      l1 l2) :
    (oppsOf l2 aid).map (fun o => o.amount) =
      (oppsOf l1 aid).map (fun o => o.amount) := by
  induction hf with
  | nil => rfl
  | @cons a b as bs hoo htl ih =>
      unfold oppsOf at ih ⊢
      rw [List.filter_cons, List.filter_cons]
      by_cases hc : a.accountId = aid
      · have hb : decide (b.accountId = aid) = true := by
          rw [decide_eq_true_eq, hoo.2]
          exact hc
        have ha : decide (a.accountId = aid) = true := decide_eq_true hc
        rw [hb, ha, if_pos rfl, if_pos rfl, List.map_cons, List.map_cons, hoo.1, ih]
      · have hb : decide (b.accountId = aid) = false := by
          rw [decide_eq_false_iff_not, hoo.2]
          exact hc
        have ha : decide (a.accountId = aid) = false := decide_eq_false hc
        rw [hb, ha, if_neg Bool.false_ne_true, if_neg Bool.false_ne_true, ih]

/-! ### Account facts carried to the ownership stage -/

theorem accounts2_facts {cfg : Settings} {v : GenInputs} {r : Rng}
    {accounts0 : List Account} {r1 : Rng} {reps0 : List Rep} {ra : Rng}
    {accounts2 : List Account} {rb : Rng}
    (h1 : accountsStage cfg v r = Except.ok (accounts0, r1))
    (h4 : assignOwners reps0 (accounts0.map (fun a =>
        { a with territoryId := industryTerritoryId accounts0 a.industry })) ra =
      Except.ok (accounts2, rb)) :
    (accounts2.map (fun a => a.id)).Nodup ∧ ∀ a ∈ accounts2, 1 ≤ a.numDevelopers := by
  have hf4 := assignOwners_ok h4
  have hids : (accounts0.map (fun a =>
      { a with territoryId := industryTerritoryId accounts0 a.industry })).map
        (fun a => a.id) = accounts2.map (fun a => a.id) := by
    apply forall₂_map_eq ?hfg hf4
    intro a b hab
    rw [hab]
  have hids0 : (accounts0.map (fun a =>
      { a with territoryId := industryTerritoryId accounts0 a.industry })).map
        (fun a => a.id) = accounts0.map (fun a => a.id) := by
    rw [List.map_map]
    rfl
  constructor
  · rw [← hids, hids0]
    exact accountsStage_nodup h1
  · intro a ha
    obtain ⟨a1, ha1, hr⟩ := forall₂_mem_right hf4 a ha
    obtain ⟨a0, ha0, he0⟩ := List.mem_map.mp ha1
    have hd1 : a.numDevelopers = a1.numDevelopers := by
      rw [hr]
    have hd0 : a1.numDevelopers = a0.numDevelopers := by
      rw [← he0]
    rw [hd1, hd0]
    exact (accountsStage_ok h1).2 a0 ha0

/-- C2: the TAM invariant.  (1) In every dataset `generate` returns
successfully (with a non-negative `TAM_PER_DEVELOPER`), each account's
opportunity amounts sum to at most `TAM_PER_DEVELOPER * numDevelopers`;
(2) the per-account enforcement step caps any amount list at the cap; and
(3) the global scaling pass preserves the per-account cap. -/
theorem c2_tam_invariant :
    (∀ (cfg : Settings) (fromSeed : ℤ → Rng) (seed : Option ℤ) (v : GenInputs)
        (out : GenOut), 0 ≤ cfg.TAM_PER_DEVELOPER →
      generate cfg fromSeed seed v = Except.ok out →
      ∀ a ∈ out.accounts,
        ((oppsOf out.opportunities a.id).map (fun o => o.amount)).sum ≤
          cfg.TAM_PER_DEVELOPER * a.numDevelopers) ∧
      (∀ (amounts : List ℤ) (tam : ℤ), 0 ≤ tam →
        (_enforce_tam_int amounts tam).sum ≤ tam) ∧
      (∀ (cfg : Settings) (accounts : List Account) (m : List (ℤ × List ℤ)),
        (accounts.map (fun a => a.id)).Nodup →
        (∀ a ∈ accounts, 0 ≤ cfg.TAM_PER_DEVELOPER * a.numDevelopers) →
        (∀ a ∈ accounts,
          (dictGet m a.id).sum ≤ cfg.TAM_PER_DEVELOPER * a.numDevelopers) →
        ∀ a ∈ accounts,
          (dictGet (_try_global_scale cfg accounts m) a.id).sum ≤
            cfg.TAM_PER_DEVELOPER * a.numDevelopers) := by
  refine ⟨?_, fun amounts tam htam => enforce_tam_sum_le amounts htam,
    fun cfg accounts m hnd ht hin => try_global_scale_tam hnd ht hin⟩
  intro cfg fromSeed seed v out htam h
  obtain ⟨rng, rend, hcore⟩ := generate_inv h
  obtain ⟨accounts0, r1, shuffled, rs, reps0, ra, accounts2, rb, counts0, rc,
    counts, rd, best, re, opps0, rf, opps, rg, tmap, rh, reps1, ri, accounts4,
    rj, h1, h2, h3, h4, h5, h6, h7, h8, h9, h10, h11, h12, ho⟩ :=
    generateCore_inv hcore
  obtain ⟨hnodup2, hdev2⟩ := accounts2_facts h1 h4
  have htam2 : ∀ a ∈ accounts2, 0 ≤ cfg.TAM_PER_DEVELOPER * a.numDevelopers := by
    intro a ha
    exact mul_nonneg htam (le_trans zero_le_one (hdev2 a ha))
  obtain ⟨hkeys, hbound⟩ := (amountsStage_ok h7).2 hnodup2 htam2
  have hfil := (buildOpportunities_spec h8).2.2 hnodup2
  obtain ⟨S, rS, hneg, hS, hloop⟩ := assignCloseDates_inv h9
  have hpres := assignDatesLoop_preserves hloop
  intro a ha
  have haccts : out.accounts = accounts4 := by rw [ho]
  have hopps : out.opportunities = opps := by rw [ho]
  rw [haccts] at ha
  obtain ⟨a2, ha2, hid, hdev⟩ := forall₂_mem_right (accounts_core_preserved h12) a ha
  rw [hopps, hid, hdev, oppsOf_map_amount_eq a2.id hpres, hfil a2 ha2]
  exact hbound a2 ha2

theorem c2_witness :
    (∀ a ∈ resW.accounts,
      ((oppsOf resW.opportunities a.id).map (fun o => o.amount)).sum ≤
        cfgW.TAM_PER_DEVELOPER * a.numDevelopers) ∧
      ((_enforce_tam_int [7, 8] 10).sum ≤ 10) ∧
      (∀ a ∈ [acctW],
        (dictGet (_try_global_scale cfgW [acctW] [(1, [50000, 50000])]) a.id).sum ≤
          cfgW.TAM_PER_DEVELOPER * a.numDevelopers) := by
  obtain ⟨hgen, henf, hscale⟩ := c2_tam_invariant
  exact ⟨hgen cfgW fsW (some 0) inputsW resW (by decide) (by rfl),
    henf [7, 8] 10 (by decide),
    hscale cfgW [acctW] [(1, [50000, 50000])] (by decide) (by decide) (by decide)⟩

theorem total_bind {α β : Type} {x : GenM α} {f : α → GenM β}
    (hx : Total x) (hf : ∀ a, Total (f a)) : Total (x >>= f) := by
  intro r
  obtain ⟨⟨a, r1⟩, hxa⟩ := hx r
  obtain ⟨p, hfp⟩ := hf a r1
  refine ⟨p, ?_⟩
  rw [bind_eq_gBind]
  unfold gBind
  rw [hxa]
  exact hfp

theorem total_pure {α : Type} (a : α) : Total (pure a : GenM α) :=
  fun r => ⟨(a, r), rfl⟩

theorem uniformM_total (a b : Q) : Total (uniformM a b) :=
  fun r => ⟨(a.add ((b.sub a).mul (r.reals r.pos)), r.next), rfl⟩

theorem rawAmounts_total (cfg : Settings) (x : Q) :
    ∀ n, Total (rawAmounts cfg x n) := by
  intro n
  induction n with
  | zero => exact total_pure []
  | succ n ih =>
      show Total (uniformM cfg.AMOUNT_MULTIPLIER_MIN cfg.AMOUNT_MULTIPLIER_MAX >>= _)
      refine total_bind (uniformM_total _ _) ?_
      intro u
      exact total_bind ih (fun rest => total_pure _)

theorem amountsForOneAccount_total (cfg : Settings) (acct : Account) (n : ℤ) :
    Total (amountsForOneAccount cfg acct n) := by
  unfold amountsForOneAccount
  by_cases hn : n ≤ 0
  · rw [if_pos hn]
    exact total_pure _
  · rw [if_neg hn]
    refine total_bind (uniformM_total _ _) ?_
    intro coverage
    exact total_bind (rawAmounts_total _ _ _) (fun raw => total_pure _)

theorem genAmountsLoop_total (cfg : Settings) :
    ∀ l, Total (genAmountsLoop cfg l) := by
  intro l
  induction l with
  | nil => exact total_pure []
  | cons p rest ih =>
      obtain ⟨acct, n⟩ := p
      show Total (amountsForOneAccount cfg acct n >>= _)
      refine total_bind (amountsForOneAccount_total _ _ _) ?_
      intro entry
      exact total_bind ih (fun tail => total_pure _)

theorem amountAttempt_total {cfg : Settings} {accounts : List Account}
    {counts : List ℤ} (hlen : accounts.length = counts.length) :
    Total (amountAttempt cfg accounts counts) := by
  unfold amountAttempt
  refine total_bind ?_ (fun m => total_pure _)
  unfold _generate_amounts_for_accounts
  rw [if_pos hlen]
  exact genAmountsLoop_total _ _

/-! ### Unconditional keys of the amount stage -/

theorem amountAttempt_keys {cfg : Settings} {accounts : List Account}
    {counts : List ℤ} {r : Rng} {m : List (ℤ × List ℤ)} {r2 : Rng}
    (h : amountAttempt cfg accounts counts r = Except.ok (m, r2)) :
    m.map Prod.fst = accounts.map (fun a => a.id) := by
  unfold amountAttempt at h
  rw [bind_eq_gBind, gBind_ok_iff] at h
  obtain ⟨m0, r1, hgen, h⟩ := h
  rw [genPure_ok_iff] at h
  injection h with h1 h2
  subst h1
  exact try_global_scale_keys cfg accounts m0 (genAmounts_keys hgen).1

theorem amountsStage_prop {cfg : Settings} {accounts : List Account}
    {counts : List ℤ} {P : List (ℤ × List ℤ) → Prop}
    (hattempt : ∀ r m r2,
      amountAttempt cfg accounts counts r = Except.ok (m, r2) → P m)
    {r : Rng} {m : List (ℤ × List ℤ)} {r2 : Rng}
    (h : amountsStage cfg accounts counts r = Except.ok (m, r2)) : P m := by
  unfold amountsStage at h
  rw [bind_eq_gBind, gBind_ok_iff] at h
  obtain ⟨best, r1, hloop, h⟩ := h
  cases best with
  | none => simp at h
  | some m0 =>
      have hh : (if cfg.TOTAL_PIPELINE_MIN ≤ mTotal m0 ∧
            mTotal m0 ≤ cfg.TOTAL_PIPELINE_MAX then (pure m0 : GenM (List (ℤ × List ℤ)))
          else gThrow (pipelineFailMsg cfg (mTotal m0))) r1 = Except.ok (m, r2) := h
      by_cases hrange : cfg.TOTAL_PIPELINE_MIN ≤ mTotal m0 ∧
          mTotal m0 ≤ cfg.TOTAL_PIPELINE_MAX
      · rw [if_pos hrange] at hh
        rw [genPure_ok_iff] at hh
        injection hh with h1 h2
        subst h1
        exact amountRetryLoop_prop hattempt _ _ _ _ _ _ hloop
          (by intro mm hmm; cases hmm) m rfl
      · rw [if_neg hrange] at hh
        simp at hh

theorem amountsStage_keys {cfg : Settings} {accounts : List Account}
    {counts : List ℤ} {r : Rng} {m : List (ℤ × List ℤ)} {r2 : Rng}
    (h : amountsStage cfg accounts counts r = Except.ok (m, r2)) :
    m.map Prod.fst = accounts.map (fun a => a.id) :=
  amountsStage_prop (fun r m r2 hat => amountAttempt_keys hat) h

/-! ### The attempt trace of the retry loop -/

theorem attemptsTrace_ok {cfg : Settings} {accounts : List Account}
    {counts : List ℤ} {fuel : ℕ} {r : Rng} {m1 : List (ℤ × List ℤ)} {r1 : Rng}
    (hatt : amountAttempt cfg accounts counts r = Except.ok (m1, r1)) :
    attemptsTrace cfg accounts counts (fuel + 1) r =
      if cfg.TOTAL_PIPELINE_MIN ≤ mTotal m1 ∧ mTotal m1 ≤ cfg.TOTAL_PIPELINE_MAX then
        [mTotal m1]
      else mTotal m1 :: attemptsTrace cfg accounts counts fuel r1 := by
  conv_lhs => unfold attemptsTrace
  rw [hatt]

theorem amountRetryLoop_total {cfg : Settings} {accounts : List Account}
    {counts : List ℤ} (hlen : accounts.length = counts.length) :
    ∀ (fuel : ℕ) (best : Option (List (ℤ × List ℤ))) (bestDist : Option ℤ),
      Total (amountRetryLoop cfg accounts counts fuel best bestDist) := by
  intro fuel
  induction fuel with
  | zero =>
      intro best bestDist
      exact total_pure best
  | succ fuel ih =>
      intro best bestDist
      show Total (amountAttempt cfg accounts counts >>= _)
      refine total_bind (amountAttempt_total hlen) ?_
      intro m r
      by_cases hrange : cfg.TOTAL_PIPELINE_MIN ≤ mTotal m ∧
          mTotal m ≤ cfg.TOTAL_PIPELINE_MAX
      · rw [if_pos hrange]
        exact total_pure _ r
      · rw [if_neg hrange]
        exact ih _ _ r

theorem amountRetryLoop_some {cfg : Settings} {accounts : List Account}
    {counts : List ℤ} :
    ∀ (fuel : ℕ) (best : Option (List (ℤ × List ℤ))) (bestDist : Option ℤ)
      (r : Rng) (res : Option (List (ℤ × List ℤ))) (r2 : Rng),
      amountRetryLoop cfg accounts counts fuel best bestDist r = Except.ok (res, r2) →
      bestDist = best.map (fun mm => |mTotal mm - cfg.TOTAL_PIPELINE_TARGET|) →
      (best.isSome ∨ 1 ≤ fuel) → res.isSome := by
  intro fuel
  induction fuel with
  | zero =>
      intro best bestDist r res r2 h hinv hsome
      unfold amountRetryLoop at h
      rw [genPure_ok_iff] at h
      injection h with h1 h2
      subst h1
      rcases hsome with hs | hs
      · exact hs
      · omega
  | succ fuel ih =>
      intro best bestDist r res r2 h hinv hsome
      unfold amountRetryLoop at h
      rw [bind_eq_gBind, gBind_ok_iff] at h
      obtain ⟨m1, r1, hatt, h⟩ := h
      by_cases hrange : cfg.TOTAL_PIPELINE_MIN ≤ mTotal m1 ∧
          mTotal m1 ≤ cfg.TOTAL_PIPELINE_MAX
      · rw [if_pos hrange] at h
        rw [genPure_ok_iff] at h
        injection h with h1 h2
        subst h1
        rfl
      · rw [if_neg hrange] at h
        by_cases hbd : betterDist |mTotal m1 - cfg.TOTAL_PIPELINE_TARGET| bestDist
        · rw [if_pos hbd, if_pos hbd] at h
          refine ih _ _ _ _ _ h ?_ (Or.inl rfl)
          rfl
        · rw [if_neg hbd, if_neg hbd] at h
          refine ih _ _ _ _ _ h hinv (Or.inl ?_)
          cases hbest : best with
          | none =>
              rw [hbest] at hinv
              rw [hinv] at hbd
              exact absurd rfl hbd
          | some m0 => rfl

theorem amountRetryLoop_min {cfg : Settings} {accounts : List Account}
    {counts : List ℤ} :
    ∀ (fuel : ℕ) (best : Option (List (ℤ × List ℤ))) (bestDist : Option ℤ)
      (r : Rng) (res : Option (List (ℤ × List ℤ))) (r2 : Rng),
      amountRetryLoop cfg accounts counts fuel best bestDist r = Except.ok (res, r2) →
      bestDist = best.map (fun mm => |mTotal mm - cfg.TOTAL_PIPELINE_TARGET|) →
      ∀ mf, res = some mf →
        (cfg.TOTAL_PIPELINE_MIN ≤ mTotal mf ∧ mTotal mf ≤ cfg.TOTAL_PIPELINE_MAX) ∨
          ((∀ t ∈ attemptsTrace cfg accounts counts fuel r,
              |mTotal mf - cfg.TOTAL_PIPELINE_TARGET| ≤
                |t - cfg.TOTAL_PIPELINE_TARGET|) ∧
            (∀ m0, best = some m0 →
              |mTotal mf - cfg.TOTAL_PIPELINE_TARGET| ≤
                |mTotal m0 - cfg.TOTAL_PIPELINE_TARGET|) ∧
            (mTotal mf ∈ attemptsTrace cfg accounts counts fuel r ∨ best = some mf)) := by
  intro fuel
  induction fuel with
  | zero =>
      intro best bestDist r res r2 h hinv mf hres
      unfold amountRetryLoop at h
      rw [genPure_ok_iff] at h
      injection h with h1 h2
      subst h1
      right
      refine ⟨?_, ?_, Or.inr hres⟩
      · intro t ht
        cases ht
      · intro m0 hm0
        rw [hres] at hm0
        injection hm0 with hm0
        rw [hm0]
  | succ fuel ih =>
      intro best bestDist r res r2 h hinv mf hres
      unfold amountRetryLoop at h
      rw [bind_eq_gBind, gBind_ok_iff] at h
      obtain ⟨m1, r1, hatt, h⟩ := h
      rw [attemptsTrace_ok hatt]
      by_cases hrange : cfg.TOTAL_PIPELINE_MIN ≤ mTotal m1 ∧
          mTotal m1 ≤ cfg.TOTAL_PIPELINE_MAX
      · rw [if_pos hrange] at h
        rw [genPure_ok_iff] at h
        injection h with h1 h2
        subst h1
        injection hres with hmf
        left
        rw [← hmf]
        exact hrange
      · rw [if_neg hrange] at h
        rw [if_neg hrange]
        have hinv2 : (if betterDist |mTotal m1 - cfg.TOTAL_PIPELINE_TARGET| bestDist
            then some |mTotal m1 - cfg.TOTAL_PIPELINE_TARGET| else bestDist) =
            (if betterDist |mTotal m1 - cfg.TOTAL_PIPELINE_TARGET| bestDist
              then some m1 else best).map
              (fun mm => |mTotal mm - cfg.TOTAL_PIPELINE_TARGET|) := by
          by_cases hbd : betterDist |mTotal m1 - cfg.TOTAL_PIPELINE_TARGET| bestDist
          · rw [if_pos hbd, if_pos hbd]
            rfl
          · rw [if_neg hbd, if_neg hbd]
            exact hinv
        rcases ih _ _ _ _ _ h hinv2 mf hres with hin | ⟨htr, hbst, hmem⟩
        · exact Or.inl hin
        · right
          have hd1 : |mTotal mf - cfg.TOTAL_PIPELINE_TARGET| ≤
              |mTotal m1 - cfg.TOTAL_PIPELINE_TARGET| := by
            by_cases hbd : betterDist |mTotal m1 - cfg.TOTAL_PIPELINE_TARGET| bestDist
            · exact hbst m1 (by rw [if_pos hbd])
            · cases hbest : best with
              | none =>
                  rw [hbest] at hinv
                  rw [hinv] at hbd
                  exact absurd rfl hbd
              | some m0 =>
                  rw [hbest] at hinv
                  have hinv3 : bestDist =
                      some |mTotal m0 - cfg.TOTAL_PIPELINE_TARGET| := hinv
                  have hbd2 : ¬ (decide (|mTotal m1 - cfg.TOTAL_PIPELINE_TARGET| <
                      |mTotal m0 - cfg.TOTAL_PIPELINE_TARGET|) = true) := by
                    intro hc
                    apply hbd
                    rw [hinv3]
                    exact hc
                  rw [decide_eq_true_eq] at hbd2
                  have hge := Int.not_lt.mp hbd2
                  have hmf0 : |mTotal mf - cfg.TOTAL_PIPELINE_TARGET| ≤
                      |mTotal m0 - cfg.TOTAL_PIPELINE_TARGET| := by
                    refine hbst m0 ?_
                    rw [if_neg hbd, hbest]
                  exact le_trans hmf0 hge
          refine ⟨?_, ?_, ?_⟩
          · intro t ht
            rcases List.mem_cons.mp ht with h1 | h2
            · rw [h1]
              exact hd1
            · exact htr t h2
          · intro m0 hm0
            by_cases hbd : betterDist |mTotal m1 - cfg.TOTAL_PIPELINE_TARGET| bestDist
            · rw [hm0] at hinv
              have hinv3 : bestDist =
                  some |mTotal m0 - cfg.TOTAL_PIPELINE_TARGET| := hinv
              rw [hinv3] at hbd
              have hbd2 : decide (|mTotal m1 - cfg.TOTAL_PIPELINE_TARGET| <
                  |mTotal m0 - cfg.TOTAL_PIPELINE_TARGET|) = true := hbd
              rw [decide_eq_true_eq] at hbd2
              exact le_trans hd1 (le_of_lt hbd2)
            · refine hbst m0 ?_
              rw [if_neg hbd]
              exact hm0
          · rcases hmem with hmt | hb2
            · exact Or.inl (List.mem_cons_of_mem _ hmt)
            · by_cases hbd : betterDist |mTotal m1 - cfg.TOTAL_PIPELINE_TARGET| bestDist
              · rw [if_pos hbd] at hb2
                injection hb2 with hb2
                rw [← hb2]
                exact Or.inl (List.mem_cons_self _ _)
              · rw [if_neg hbd] at hb2
                exact Or.inr hb2

theorem gBind_error_iff {α β : Type} {x : GenM α} {f : α → GenM β} {r : Rng}
    {e : String} :
    gBind x f r = Except.error e ↔
      x r = Except.error e ∨
        ∃ a r1, x r = Except.ok (a, r1) ∧ f a r1 = Except.error e := by
  unfold gBind
  cases hx : x r with
  | error e2 =>
      constructor
      · intro h
        injection h with h
        exact Or.inl (by rw [h])
      · intro h
        rcases h with h | ⟨a, r1, ha, hf⟩
        · injection h with h
          rw [h]
        · cases ha
  | ok p =>
      obtain ⟨a, r1⟩ := p
      constructor
      · intro h
        exact Or.inr ⟨a, r1, rfl, h⟩
      · intro h
        rcases h with h | ⟨a2, r12, ha, hf⟩
        · cases h
        · injection ha with ha
          injection ha with ha1 ha2
          subst ha1
          subst ha2
          exact hf

/-- When the amount section of `generate` fails, the reported total is the
total of one of the attempts the retry loop made, it is the closest of all
attempted totals to `TOTAL_PIPELINE_TARGET`, and it lies outside
`[TOTAL_PIPELINE_MIN, TOTAL_PIPELINE_MAX]`. -/
theorem amountsStage_error {cfg : Settings} {accounts : List Account}
    {counts : List ℤ} {r : Rng} {e : String}
    (hfuel : 1 ≤ cfg.AMOUNT_RETRY_LIMIT)
    (hlen : accounts.length = counts.length)
    (h : amountsStage cfg accounts counts r = Except.error e) :
    ∃ t, e = pipelineFailMsg cfg t ∧
      t ∈ attemptsTrace cfg accounts counts cfg.AMOUNT_RETRY_LIMIT r ∧
      (∀ t2 ∈ attemptsTrace cfg accounts counts cfg.AMOUNT_RETRY_LIMIT r,
        |t - cfg.TOTAL_PIPELINE_TARGET| ≤ |t2 - cfg.TOTAL_PIPELINE_TARGET|) ∧
      ¬ (cfg.TOTAL_PIPELINE_MIN ≤ t ∧ t ≤ cfg.TOTAL_PIPELINE_MAX) := by
  unfold amountsStage at h
  rw [bind_eq_gBind, gBind_error_iff] at h
  obtain ⟨⟨res, rloop⟩, hok⟩ :=
    amountRetryLoop_total hlen cfg.AMOUNT_RETRY_LIMIT none none r
  rcases h with herr | ⟨best, r1, hloop, hrest⟩
  · rw [hok] at herr
    cases herr
  · rw [hok] at hloop
    injection hloop with hloop
    injection hloop with hb hr
    subst hb
    subst hr
    have hsome := amountRetryLoop_some _ _ _ _ _ _ hok rfl (Or.inr hfuel)
    cases hbest : res with
    | none =>
        rw [hbest] at hsome
        cases hsome
    | some m0 =>
        rw [hbest] at hrest
        have hh : (if cfg.TOTAL_PIPELINE_MIN ≤ mTotal m0 ∧
              mTotal m0 ≤ cfg.TOTAL_PIPELINE_MAX then (pure m0 : GenM (List (ℤ × List ℤ)))
            else gThrow (pipelineFailMsg cfg (mTotal m0))) rloop = Except.error e := hrest
        by_cases hrange : cfg.TOTAL_PIPELINE_MIN ≤ mTotal m0 ∧
            mTotal m0 ≤ cfg.TOTAL_PIPELINE_MAX
        · rw [if_pos hrange] at hh
          have hh2 : (Except.ok (m0, rloop) : Except String (List (ℤ × List ℤ) × Rng)) =
              Except.error e := hh
          cases hh2
        · rw [if_neg hrange] at hh
          have hh2 : (Except.error (pipelineFailMsg cfg (mTotal m0)) :
              Except String (List (ℤ × List ℤ) × Rng)) = Except.error e := hh
          injection hh2 with he
          rcases amountRetryLoop_min _ _ _ _ _ _ hok rfl m0 hbest with hin | ⟨htr, hbst, hmem⟩
          · exact absurd hin hrange
          · refine ⟨mTotal m0, he.symm, ?_, htr, hrange⟩
            rcases hmem with hmt | hb2
            · exact hmt
            · cases hb2

/-- C3: (1) every dataset `generate` returns has a total opportunity amount
inside `[TOTAL_PIPELINE_MIN, TOTAL_PIPELINE_MAX]`; (2) when the retried
amount section fails instead, its error names the total of the attempt
closest to `TOTAL_PIPELINE_TARGET` among all attempts made, and that total
lies outside the range. -/
theorem c3_pipeline_range_and_failure :
    (∀ (cfg : Settings) (fromSeed : ℤ → Rng) (seed : Option ℤ) (v : GenInputs)
        (out : GenOut), generate cfg fromSeed seed v = Except.ok out →
      cfg.TOTAL_PIPELINE_MIN ≤ (out.opportunities.map (fun o => o.amount)).sum ∧
        (out.opportunities.map (fun o => o.amount)).sum ≤ cfg.TOTAL_PIPELINE_MAX) ∧
      (∀ (cfg : Settings) (accounts : List Account) (counts : List ℤ) (r : Rng)
          (e : String), 1 ≤ cfg.AMOUNT_RETRY_LIMIT →
        accounts.length = counts.length →
        amountsStage cfg accounts counts r = Except.error e →
        ∃ t, e = pipelineFailMsg cfg t ∧
          t ∈ attemptsTrace cfg accounts counts cfg.AMOUNT_RETRY_LIMIT r ∧
          (∀ t2 ∈ attemptsTrace cfg accounts counts cfg.AMOUNT_RETRY_LIMIT r,
            |t - cfg.TOTAL_PIPELINE_TARGET| ≤ |t2 - cfg.TOTAL_PIPELINE_TARGET|) ∧
          ¬ (cfg.TOTAL_PIPELINE_MIN ≤ t ∧ t ≤ cfg.TOTAL_PIPELINE_MAX)) := by
  refine ⟨?_, fun cfg accounts counts r e hfuel hlen herr =>
    amountsStage_error hfuel hlen herr⟩
  intro cfg fromSeed seed v out h
  obtain ⟨rng, rend, hcore⟩ := generate_inv h
  obtain ⟨accounts0, r1, shuffled, rs, reps0, ra, accounts2, rb, counts0, rc,
    counts, rd, best, re, opps0, rf, opps, rg, tmap, rh, reps1, ri, accounts4,
    rj, h1, h2, h3, h4, h5, h6, h7, h8, h9, h10, h11, h12, ho⟩ :=
    generateCore_inv hcore
  have hnodup2 := (accounts2_facts h1 h4).1
  have hkeys := amountsStage_keys h7
  have hrange := (amountsStage_ok h7).1
  have hsum0 := (buildOpportunities_spec h8).2.1
  have hmt := sum_dictGet_eq_mTotal hkeys hnodup2
  obtain ⟨S, rS, hneg, hS, hloop⟩ := assignCloseDates_inv h9
  have hpres := assignDatesLoop_preserves hloop
  have hmap : opps0.map (fun o => o.amount) = opps.map (fun o => o.amount) := by
    apply forall₂_map_eq ?hfg hpres
    intro a b hab
    exact hab.1.symm
  have hopps : out.opportunities = opps := by rw [ho]
  rw [hopps, ← hmap, hsum0, hmt]
  exact hrange

theorem c3_witness :
    (cfgW.TOTAL_PIPELINE_MIN ≤ (resW.opportunities.map (fun o => o.amount)).sum ∧
      (resW.opportunities.map (fun o => o.amount)).sum ≤ cfgW.TOTAL_PIPELINE_MAX) ∧
      ∃ t, "Failed to reach total pipeline target range after 3 retries; total=100" =
          pipelineFailMsg cfgE t ∧
        t ∈ attemptsTrace cfgE [acctW] [2] cfgE.AMOUNT_RETRY_LIMIT rngW ∧
        (∀ t2 ∈ attemptsTrace cfgE [acctW] [2] cfgE.AMOUNT_RETRY_LIMIT rngW,
          |t - cfgE.TOTAL_PIPELINE_TARGET| ≤ |t2 - cfgE.TOTAL_PIPELINE_TARGET|) ∧
        ¬ (cfgE.TOTAL_PIPELINE_MIN ≤ t ∧ t ≤ cfgE.TOTAL_PIPELINE_MAX) := by
  obtain ⟨hok, herr⟩ := c3_pipeline_range_and_failure
  refine ⟨hok cfgW fsW (some 0) inputsW resW (by rfl), ?_⟩
  exact herr cfgE [acctW] [2] rngW
    "Failed to reach total pipeline target range after 3 retries; total=100"
    (by decide) (by decide) (by rfl)

theorem kMaxFold_step_some (cfg : Settings) (m : List (ℤ × List ℤ)) :
    ∀ (l : List Account) (km : Q),
      l.foldl
        (fun acc acct =>
          let acctTotal := acctTotalIn m acct.id
          if acctTotal ≤ 0 then acc
          else
            let tam := cfg.TAM_PER_DEVELOPER * acct.numDevelopers
            let ratio := (Q.ofInt tam).div (Q.ofInt acctTotal)
            match acc with
            | none => some ratio
            | some km => some (km.minQ ratio))
        (some km) = some ((ratiosQ cfg m l).foldl Q.minQ km) := by
  intro l
  induction l with
  | nil => intro km; rfl
  | cons a l ih =>
      intro km
      rw [List.foldl_cons]
      unfold ratiosQ
      rw [List.filter_cons]
      by_cases ht : acctTotalIn m a.id ≤ 0
      · have hc : decide (0 < acctTotalIn m a.id) = false := by
          rw [decide_eq_false_iff_not]
          omega
        rw [hc, if_neg Bool.false_ne_true]
        have hstep : (if acctTotalIn m a.id ≤ 0 then (some km : Option Q)
            else some (km.minQ ((Q.ofInt (cfg.TAM_PER_DEVELOPER * a.numDevelopers)).div
              (Q.ofInt (acctTotalIn m a.id))))) = some km := if_pos ht
        rw [hstep]
        exact ih km
      · have hc : decide (0 < acctTotalIn m a.id) = true := by
          rw [decide_eq_true_eq]
          omega
        rw [hc, if_pos rfl]
        have hstep : (if acctTotalIn m a.id ≤ 0 then (some km : Option Q)
            else some (km.minQ ((Q.ofInt (cfg.TAM_PER_DEVELOPER * a.numDevelopers)).div
              (Q.ofInt (acctTotalIn m a.id))))) =
            some (km.minQ ((Q.ofInt (cfg.TAM_PER_DEVELOPER * a.numDevelopers)).div
              (Q.ofInt (acctTotalIn m a.id)))) := if_neg ht
        rw [hstep, List.map_cons, List.foldl_cons]
        exact ih _

theorem kMaxFold_spec (cfg : Settings) (m : List (ℤ × List ℤ)) :
    ∀ (l : List Account),
      kMaxFold cfg l m =
        match ratiosQ cfg m l with
        | [] => none
        | r :: rest => some (rest.foldl Q.minQ r) := by
  intro l
  unfold kMaxFold
  induction l with
  | nil => rfl
  | cons a l ih =>
      rw [List.foldl_cons]
      unfold ratiosQ
      rw [List.filter_cons]
      by_cases ht : acctTotalIn m a.id ≤ 0
      · have hc : decide (0 < acctTotalIn m a.id) = false := by
          rw [decide_eq_false_iff_not]
          omega
        rw [hc, if_neg Bool.false_ne_true]
        have hstep : (if acctTotalIn m a.id ≤ 0 then (none : Option Q)
            else some ((Q.ofInt (cfg.TAM_PER_DEVELOPER * a.numDevelopers)).div
              (Q.ofInt (acctTotalIn m a.id)))) = none := if_pos ht
        rw [hstep]
        exact ih
      · have hc : decide (0 < acctTotalIn m a.id) = true := by
          rw [decide_eq_true_eq]
          omega
        rw [hc, if_pos rfl]
        have hstep : (if acctTotalIn m a.id ≤ 0 then (none : Option Q)
            else some ((Q.ofInt (cfg.TAM_PER_DEVELOPER * a.numDevelopers)).div
              (Q.ofInt (acctTotalIn m a.id)))) =
            some ((Q.ofInt (cfg.TAM_PER_DEVELOPER * a.numDevelopers)).div
              (Q.ofInt (acctTotalIn m a.id))) := if_neg ht
        rw [hstep, List.map_cons]
        exact kMaxFold_step_some cfg m l _

theorem toRat_foldl_minQ :
    ∀ (l : List Q) (km : Q), km.WFQ → (∀ q ∈ l, q.WFQ) →
      (l.foldl Q.minQ km).toRat = (l.map Q.toRat).foldl min km.toRat := by
  intro l
  induction l with
  | nil => intro km hkm hl; rfl
  | cons q l ih =>
      intro km hkm hl
      rw [List.foldl_cons, List.map_cons, List.foldl_cons]
      have hq : q.WFQ := hl q (List.mem_cons_self q l)
      rw [← Q.minQ_eq_min hkm hq]
      exact ih (km.minQ q) (Q.WFQ_minQ hkm hq)
        (fun x hx => hl x (List.mem_cons_of_mem q hx))

theorem ratiosQ_map_toRat (cfg : Settings) (m : List (ℤ × List ℤ))
    (accounts : List Account) :
    (ratiosQ cfg m accounts).map Q.toRat = specHeadroomRatios cfg accounts m := by
  unfold ratiosQ specHeadroomRatios
  rw [List.map_map]
  apply List.map_congr_left
  intro a ha
  show ((Q.ofInt (cfg.TAM_PER_DEVELOPER * a.numDevelopers)).div
      (Q.ofInt (acctTotalIn m a.id))).toRat = _
  rw [Q.toRat_div (Q.WFQ_ofInt _) (Q.WFQ_ofInt _), Q.toRat_ofInt, Q.toRat_ofInt]

theorem foldl_minQ_WF :
    ∀ (l : List Q) (km : Q), km.WFQ → (∀ q ∈ l, q.WFQ) →
      (l.foldl Q.minQ km).WFQ := by
  intro l
  induction l with
  | nil => intro km hkm hl; exact hkm
  | cons q l ih =>
      intro km hkm hl
      rw [List.foldl_cons]
      exact ih _ (Q.WFQ_minQ hkm (hl q (List.mem_cons_self q l)))
        (fun x hx => hl x (List.mem_cons_of_mem q hx))

theorem ratiosQ_WF (cfg : Settings) (m : List (ℤ × List ℤ))
    (accounts : List Account) :
    ∀ q ∈ ratiosQ cfg m accounts, q.WFQ := by
  intro q hq
  unfold ratiosQ at hq
  obtain ⟨a, ha, he⟩ := List.mem_map.mp hq
  have hpos : 0 < acctTotalIn m a.id := of_decide_eq_true (List.mem_filter.mp ha).2
  rw [← he]
  exact Q.WFQ_div (Q.WFQ_ofInt _) (Q.WFQ_ofInt _) (by simpa [Q.ofInt] using ne_of_gt hpos)

/-- C7: with a positive dataset total, the factor the global scaling pass
selects equals the spec's formula (`k_ideal` when `k_ideal < 1`, otherwise
`min(k_ideal, k_max)` over the positive-total accounts), and — whenever the
near-1 skip guard does not fire — the pass rescales every account with
exactly that factor. -/
theorem c7_global_scale_factor (cfg : Settings) (accounts : List Account)
    (m : List (ℤ × List ℤ)) (htotal : 0 < scaleTotal m accounts) :
    (globalScaleK cfg accounts m).toRat = specScaleFactor cfg accounts m ∧
      (¬ ((globalScaleK cfg accounts m).sub (Q.ofInt 1)).absQ.ltQ ⟨1, 1000000000000⟩ →
        _try_global_scale cfg accounts m =
          accounts.map (scaleOneAccount cfg m (globalScaleK cfg accounts m))) := by
  have htne : (Q.ofInt (scaleTotal m accounts)).num ≠ 0 := by
    simpa [Q.ofInt] using ne_of_gt htotal
  have hkwf : ((Q.ofInt cfg.TOTAL_PIPELINE_TARGET).div
      (Q.ofInt (scaleTotal m accounts))).WFQ :=
    Q.WFQ_div (Q.WFQ_ofInt _) (Q.WFQ_ofInt _) htne
  have hkval : ((Q.ofInt cfg.TOTAL_PIPELINE_TARGET).div
      (Q.ofInt (scaleTotal m accounts))).toRat = specKIdeal cfg accounts m := by
    unfold specKIdeal
    rw [Q.toRat_div (Q.WFQ_ofInt _) (Q.WFQ_ofInt _), Q.toRat_ofInt, Q.toRat_ofInt]
  have hlt : ((Q.ofInt cfg.TOTAL_PIPELINE_TARGET).div
        (Q.ofInt (scaleTotal m accounts))).ltQ (Q.ofInt 1) ↔
      specKIdeal cfg accounts m < 1 := by
    rw [Q.ltQ_iff hkwf (Q.WFQ_ofInt 1), hkval, Q.toRat_ofInt]
    norm_num
  constructor
  · unfold globalScaleK
    by_cases hbr : ((Q.ofInt cfg.TOTAL_PIPELINE_TARGET).div
        (Q.ofInt (scaleTotal m accounts))).ltQ (Q.ofInt 1)
    · rw [if_pos hbr, hkval]
      unfold specScaleFactor
      rw [if_pos (hlt.mp hbr)]
    · rw [if_neg hbr]
      unfold specScaleFactor
      rw [if_neg (fun hc => hbr (hlt.mpr hc))]
      rw [kMaxFold_spec cfg m accounts]
      rw [← ratiosQ_map_toRat cfg m accounts]
      cases hr : ratiosQ cfg m accounts with
      | nil => exact hkval
      | cons r rest =>
          have hwf := ratiosQ_WF cfg m accounts
          rw [hr] at hwf
          have hrwf : r.WFQ := hwf r (List.mem_cons_self r rest)
          have hfwf : (rest.foldl Q.minQ r).WFQ :=
            foldl_minQ_WF rest r hrwf
              (fun x hx => hwf x (List.mem_cons_of_mem r hx))
          rw [Q.minQ_eq_min hkwf hfwf, hkval, List.map_cons]
          rw [toRat_foldl_minQ rest r hrwf
            (fun x hx => hwf x (List.mem_cons_of_mem r hx))]
  · intro hskip
    unfold _try_global_scale
    rw [if_neg (by omega : ¬ scaleTotal m accounts ≤ 0), if_neg hskip]

theorem c7_witness :
    ((globalScaleK cfgW [acctW] [(1, [50000, 50000])]).toRat =
        specScaleFactor cfgW [acctW] [(1, [50000, 50000])]) ∧
      _try_global_scale cfgW [acctW] [(1, [50000, 50000])] =
        [acctW].map (scaleOneAccount cfgW [(1, [50000, 50000])]
          (globalScaleK cfgW [acctW] [(1, [50000, 50000])])) := by
  have h := c7_global_scale_factor cfgW [acctW] [(1, [50000, 50000])] (by decide)
  exact ⟨h.1, h.2 (by decide)⟩

end Gen
